import Mathlib

/-!
# Verification of the SpiderX URL-parameter discovery pipeline

A shallow embedding of the core of the SpiderX repository
(`spiderx/filters.py`, `spiderx/advanced_features.py`, `spiderx/cli_core.py`,
`spiderx/sources/manager.py`, `spiderx/sources/crawler.py`,
`spiderx/sources/sitemap.py`) together with theorems settling the frozen
claims about its specification.

The Python standard-library routines the code relies on (`urllib.parse.urlparse`,
`urllib.parse.parse_qs`, `urllib.parse.urlunparse`, `str.lower`, `in`
substring tests) are embedded faithfully for the fragment of their behaviour
the program exercises; divergences in exotic corners (non-ASCII case mapping,
Unicode NFKC netloc validation, invalid bracketed IPv6 hosts) are noted at the
definitions.  Strings are modelled through their character lists.
-/

namespace SpiderX

/-! ## Basic character/string helpers (model of the Python primitives used) -/

/-- ASCII lower-casing of one character, the fragment of Python `str.lower`
exercised by the code (parameter names and URL schemes are ASCII). -/
def lowerChar (c : Char) : Char :=
  if 'A' ≤ c ∧ c ≤ 'Z' then Char.ofNat (c.toNat + 32) else c

/-- Model of Python `str.lower` (ASCII fragment). -/
def lowerStr (s : String) : String :=
  String.mk (s.data.map lowerChar)

/-- Does `w` occur as a contiguous sublist of `l`?  (The empty list occurs
in everything.) -/
def subOccurs (w : List Char) : List Char → Bool
  | [] => w.isEmpty
  | c :: cs => w.isPrefixOf (c :: cs) || subOccurs w cs

/-- Python's `needle in haystack` substring test. -/
def pyIn (needle hay : String) : Bool :=
  subOccurs needle.data hay.data

/-- Does `s` start with `w`?  (Model of Python `str.startswith`.) -/
def strStarts (s w : String) : Bool :=
  w.data.isPrefixOf s.data

/-- Does `s` end with `w`?  (Model of Python `str.endswith`.) -/
def strEnds (s w : String) : Bool :=
  w.data.isSuffixOf s.data

/-- Drop the last `n` characters of `s`. -/
def strDropRight (s : String) (n : Nat) : String :=
  String.mk (s.data.take (s.data.length - n))

/-- Characters of `s` before the first newline: the only region in which the
body of a `re.match` pattern can place characters matched by `.`
(Python `.` does not match a newline). -/
def firstLine (s : String) : String :=
  String.mk (s.data.takeWhile (fun c => c ≠ '\n'))

/-- Drop a single trailing newline: Python's `$` anchor also matches just
before a final newline. -/
def stripNl (s : String) : String :=
  if strEnds s "\n" then strDropRight s 1 else s

/-- ASCII whitespace as stripped by Python `str.strip()`. -/
def isPyWs (c : Char) : Bool :=
  c = ' ' || c = '\t' || c = '\n' || c = '\r' || c = '\x0b' || c = '\x0c'

/-- Model of Python `str.strip()` (ASCII fragment). -/
def strTrim (s : String) : String :=
  String.mk (((s.data.dropWhile isPyWs).reverse.dropWhile isPyWs).reverse)

/-- Split a character list at the first occurrence of `sep`; `none` when
`sep` does not occur.  Models Python `str.split(sep, 1)` / `str.find`. -/
def splitOnFirst (sep : Char) : List Char → Option (List Char × List Char)
  | [] => none
  | c :: cs =>
    if c = sep then some ([], cs)
    else (splitOnFirst sep cs).map (fun p => (c :: p.1, p.2))

/-- All chunks of a character list separated by `sep` (Python `str.split(sep)`
on a non-empty string: empty chunks are produced, not dropped). -/
def splitAllChar (sep : Char) : List Char → List (List Char)
  | [] => [[]]
  | c :: cs =>
    if c = sep then [] :: splitAllChar sep cs
    else
      match splitAllChar sep cs with
      | [] => [[c]]
      | chunk :: rest => (c :: chunk) :: rest

/-- Value of a hexadecimal digit character, if any (Python `_hextobyte`
accepts both cases). -/
def hexDigit? (c : Char) : Option Nat :=
  if '0' ≤ c ∧ c ≤ '9' then some (c.toNat - '0'.toNat)
  else if 'a' ≤ c ∧ c ≤ 'f' then some (c.toNat - 'a'.toNat + 10)
  else if 'A' ≤ c ∧ c ≤ 'F' then some (c.toNat - 'A'.toNat + 10)
  else none

/-- UTF-8 encoding of one character as byte values. -/
def utf8EncodeChar (c : Char) : List Nat :=
  let n := c.toNat
  if n < 0x80 then [n]
  else if n < 0x800 then [0xC0 + n / 0x40, 0x80 + n % 0x40]
  else if n < 0x10000 then
    [0xE0 + n / 0x1000, 0x80 + (n / 0x40) % 0x40, 0x80 + n % 0x40]
  else
    [0xF0 + n / 0x40000, 0x80 + (n / 0x1000) % 0x40,
     0x80 + (n / 0x40) % 0x40, 0x80 + n % 0x40]

/-- Is `b` a UTF-8 continuation byte? -/
def isCont (b : Nat) : Bool := 0x80 ≤ b && b ≤ 0xBF

/-- Is `b1` a valid second byte after leading byte `b` of a 3-byte UTF-8
sequence (rejecting overlong forms and surrogates, as CPython does)? -/
def valid3Second (b b1 : Nat) : Bool :=
  if b = 0xE0 then 0xA0 ≤ b1 && b1 ≤ 0xBF
  else if b = 0xED then 0x80 ≤ b1 && b1 ≤ 0x9F
  else isCont b1

/-- Is `b1` a valid second byte after leading byte `b` of a 4-byte UTF-8
sequence (rejecting overlong forms and values beyond U+10FFFF)? -/
def valid4Second (b b1 : Nat) : Bool :=
  if b = 0xF0 then 0x90 ≤ b1 && b1 ≤ 0xBF
  else if b = 0xF4 then 0x80 ≤ b1 && b1 ≤ 0x8F
  else isCont b1

/-- Fuel-indexed UTF-8 decoding step (the fuel is an upper bound on the
number of bytes, so the `0` case is never reached from `utf8DecodeReplace`). -/
def utf8DecodeGo : Nat → List Nat → List Char
  | 0, _ => []
  | _, [] => []
  | fuel + 1, b :: bs =>
    if b < 0x80 then Char.ofNat b :: utf8DecodeGo fuel bs
    else if b < 0xC2 then '�' :: utf8DecodeGo fuel bs
    else if b < 0xE0 then
      match bs with
      | b1 :: bs' =>
        if isCont b1 then
          Char.ofNat ((b - 0xC0) * 0x40 + (b1 - 0x80)) :: utf8DecodeGo fuel bs'
        else '�' :: utf8DecodeGo fuel (b1 :: bs')
      | [] => ['�']
    else if b < 0xF0 then
      match bs with
      | b1 :: b2 :: bs' =>
        if valid3Second b b1 then
          if isCont b2 then
            Char.ofNat ((b - 0xE0) * 0x1000 + (b1 - 0x80) * 0x40 + (b2 - 0x80)) ::
              utf8DecodeGo fuel bs'
          else '�' :: utf8DecodeGo fuel bs'
        else '�' :: utf8DecodeGo fuel (b1 :: b2 :: bs')
      | [b1] => if valid3Second b b1 then ['�'] else ['�', '�']
      | [] => ['�']
    else if b < 0xF5 then
      match bs with
      | b1 :: b2 :: b3 :: bs' =>
        if valid4Second b b1 then
          if isCont b2 then
            if isCont b3 then
              Char.ofNat ((b - 0xF0) * 0x40000 + (b1 - 0x80) * 0x1000 +
                (b2 - 0x80) * 0x40 + (b3 - 0x80)) :: utf8DecodeGo fuel bs'
            else '�' :: utf8DecodeGo fuel bs'
          else '�' :: utf8DecodeGo fuel (b2 :: b3 :: bs')
        else '�' :: utf8DecodeGo fuel (b1 :: b2 :: b3 :: bs')
      | _ => ['�']
    else '�' :: utf8DecodeGo fuel bs

/-- UTF-8 decoding with U+FFFD replacement on invalid input: the behaviour of
Python `bytes.decode('utf-8', errors='replace')` used by `urllib.parse.unquote`
(one replacement character per maximal invalid subpart; range checks reject
overlong forms, surrogates and values beyond U+10FFFF). -/
def utf8DecodeReplace (bs : List Nat) : List Char :=
  utf8DecodeGo bs.length bs

/-- Percent-decoding to bytes: model of `urllib.parse.unquote_to_bytes` on the
character sequence of the input (characters that are not part of a valid
`%XX` escape are passed through as their UTF-8 bytes; an invalid escape keeps
its literal `%`). -/
def pctGo : Nat → List Char → List Nat
  | 0, _ => []
  | _, [] => []
  | fuel + 1, c :: rest =>
    if c = '%' then
      match rest with
      | c1 :: c2 :: rest' =>
        match hexDigit? c1, hexDigit? c2 with
        | some h, some l => (16 * h + l) :: pctGo fuel rest'
        | _, _ => utf8EncodeChar '%' ++ pctGo fuel rest
      | _ => utf8EncodeChar c ++ pctGo fuel rest
    else utf8EncodeChar c ++ pctGo fuel rest

/-- Entry point of the percent decoder (the fuel is an upper bound on the
number of characters, so the `0` case of `pctGo` is never reached). -/
def percentDecodeBytes (cs : List Char) : List Nat :=
  pctGo cs.length cs

/-- Model of `urllib.parse.unquote_plus` as used by `parse_qsl` on field
names: `+` becomes a space, then `%XX` escapes are decoded as UTF-8 with
replacement. -/
def unquotePlus (s : String) : String :=
  String.mk (utf8DecodeReplace
    (percentDecodeBytes (s.data.map (fun c => if c = '+' then ' ' else c))))

/-! ## Model of `urllib.parse.urlsplit` / `urlunsplit`

`ParameterFilter` calls `urlparse` and `urlunparse`, but it only ever
replaces the `query` component; since `urlparse` merely splits `urlunsplit`'s
path into `path`/`params` at a `;` and `urlunparse` re-joins them with the
same `;`, carrying the path-with-params as a single component is faithful. -/

/-- The five components returned by `urlsplit` (path carries any `;params`). -/
structure SplitResult where
  scheme : String
  netloc : String
  path : String
  query : String
  fragment : String
  deriving Repr, DecidableEq

/-- Characters allowed in a scheme after its initial letter
(`urllib.parse.scheme_chars`). -/
def schemeChar (c : Char) : Bool :=
  ('a' ≤ c && c ≤ 'z') || ('A' ≤ c && c ≤ 'Z') || ('0' ≤ c && c ≤ '9') ||
    c = '+' || c = '-' || c = '.'

/-- Not one of the `\t\r\n` bytes that `urlsplit` removes. -/
def notCtl (c : Char) : Bool :=
  c ≠ '\t' && c ≠ '\r' && c ≠ '\n'

/-- Not one of the characters `/?#` delimiting the end of a netloc. -/
def notNetlocEnd (c : Char) : Bool :=
  c ≠ '/' && c ≠ '?' && c ≠ '#'

/-- Scheme recognition of `urlsplit`: split at the first `:` when the prefix
is an ASCII letter followed by scheme characters; the scheme is
lower-cased. -/
def splitScheme (cs : List Char) : List Char × List Char :=
  match splitOnFirst ':' cs with
  | some (pre, post) =>
    match pre with
    | [] => (([] : List Char), cs)
    | c0 :: ctl =>
      if c0.toNat < 128 ∧ c0.isAlpha ∧ ctl.all schemeChar then
        ((c0 :: ctl).map lowerChar, post)
      else ([], cs)
  | none => ([], cs)

/-- Netloc recognition of `urlsplit` (`_splitnetloc`): after a leading `//`,
the netloc extends to the first of `/?#`. -/
def splitNetlocCs (cs : List Char) : List Char × List Char :=
  match cs with
  | a :: b :: rest =>
    if a = '/' ∧ b = '/' then
      (rest.takeWhile notNetlocEnd, rest.dropWhile notNetlocEnd)
    else ([], cs)
  | _ => ([], cs)

/-- Fragment split of `urlsplit`: at the first `#`, if any. -/
def splitFragmentCs (cs : List Char) : List Char × List Char :=
  match splitOnFirst '#' cs with
  | some (pre, post) => (pre, post)
  | none => (cs, [])

/-- Query split of `urlsplit`: at the first `?`, if any. -/
def splitQueryCs (cs : List Char) : List Char × List Char :=
  match splitOnFirst '?' cs with
  | some (pre, post) => (pre, post)
  | none => (cs, [])

/-- Model of CPython `urlsplit` (returning `none` where it raises
`ValueError`): tab/CR/LF bytes are removed, a scheme is split off at the
first `:` when the prefix is a letter followed by scheme characters, a
`//`-led netloc extends to the first of `/?#` (mismatched IPv6 brackets
raise), the fragment is split at the first `#`, then the query at the first
`?`.  Unmodelled corners: validity checking of bracketed IPv6 hosts and the
Unicode NFKC netloc check (the embedding's claims use ASCII, bracket-free
hosts). -/
def urlsplitE (url : String) : Option SplitResult :=
  let cs := url.data.filter notCtl
  let sr := splitScheme cs
  let nr := splitNetlocCs sr.2
  if ('[' ∈ nr.1 ∧ ']' ∉ nr.1) ∨ (']' ∈ nr.1 ∧ '[' ∉ nr.1) then
    none
  else
    let rf := splitFragmentCs nr.2
    let pq := splitQueryCs rf.1
    some ⟨String.mk sr.1, String.mk nr.1, String.mk pq.1,
          String.mk pq.2, String.mk rf.2⟩

/-- Model of CPython `urlunsplit` (with path and params already joined),
which is what `urlunparse(parsed._replace(query=...))` reduces to. -/
def urlunsplit (scheme netloc path query fragment : String) : String :=
  let url :=
    if netloc ≠ "" ∨ (path ≠ "" ∧ strStarts path "//") then
      (if path ≠ "" ∧ ¬strStarts path "/" then
        "//" ++ netloc ++ "/" ++ path
       else "//" ++ netloc ++ path)
    else path
  let url := if scheme ≠ "" then scheme ++ ":" ++ url else url
  let url := if query ≠ "" then url ++ "?" ++ query else url
  if fragment ≠ "" then url ++ "#" ++ fragment else url

/-! ## Model of `urllib.parse.parse_qs` (keys only) -/

/-- The decoded name of one `name=value` chunk of a query string, as
`parse_qsl(qs, keep_blank_values=True)` computes it: an empty chunk is
skipped, the part before the first `=` (or the whole chunk) is the name,
`+` becomes space and percent-escapes are decoded. -/
def chunkName? (chunk : List Char) : Option String :=
  match chunk with
  | [] => none
  | _ =>
    match splitOnFirst '=' chunk with
    | some (name, _) => some (unquotePlus (String.mk name))
    | none => some (unquotePlus (String.mk chunk))

/-- The successive (possibly repeated) field names of a query string, in
order of occurrence: `[name for name, value in parse_qsl(qs, True)]`. -/
def parseQslNames (qs : String) : List String :=
  if qs.data = [] then []
  else (splitAllChar '&' qs.data).filterMap chunkName?

/-- First occurrence of each element, in order: the key order of a Python
dict built by insertion. -/
def dedupFirstAux : List String → List String → List String
  | [], _ => []
  | x :: xs, seen =>
    if x ∈ seen then dedupFirstAux xs seen
    else x :: dedupFirstAux xs (x :: seen)

/-- `list(parse_qs(qs, keep_blank_values=True).keys())`. -/
def parseQsKeys (qs : String) : List String :=
  dedupFirstAux (parseQslNames qs) []

/-! ## `ParameterFilter` (spiderx/filters.py) -/

/-- `ParameterFilter.extract_parameters`: parse the URL, parse its query
with blank values kept, and return the parameter names; any `urlparse`
failure yields `[]` (the bare `except` branch). -/
def extract_parameters (url : String) : List String :=
  match urlsplitE url with
  | none => []
  | some r => parseQsKeys r.query

/-- `ParameterFilter.default_boring_params` transcribed from
spiderx/filters.py (set membership is modelled by list membership). -/
def default_boring_params : List String :=
  [ -- Tracking and Analytics
    "utm_source", "utm_medium", "utm_campaign", "utm_term", "utm_content",
    "utm_id", "utm_source_platform", "utm_creative_format", "utm_marketing_tactic",
    "gclid", "gclsrc", "dclid", "fbclid", "msclkid", "ttclid",
    "ga_source", "ga_medium", "ga_campaign", "ga_term", "ga_content",
    "_ga", "_gid", "_gat", "_gtm", "gtm_debug",
    -- Social Media
    "ref", "referer", "referrer", "source", "from", "via",
    "share", "shared", "sharer", "social", "sns",
    -- Session and User Tracking
    "session", "sessionid", "session_id", "sessid", "sid",
    "user", "userid", "user_id", "uid", "uuid",
    "visitor", "visitorid", "visitor_id", "vid",
    "track", "tracking", "tracker", "trackid", "track_id",
    -- Cache and Performance
    "cache", "nocache", "cachebuster", "cb", "timestamp", "ts", "t",
    "version", "ver", "v", "rev", "revision",
    "_", "__", "___",
    -- Common boring parameters
    "lang", "language", "locale", "l", "ln",
    "theme", "skin", "style", "css",
    "debug", "test", "dev", "development",
    "format", "output", "type", "ext",
    "redirect", "return", "next", "continue", "back",
    "mobile", "desktop", "app", "client",
    "noscript", "nojs", "js",
    -- Pagination
    "page", "p", "offset", "start", "begin",
    "limit", "count", "size", "per_page", "perpage",
    -- Time-based
    "time", "date", "datetime", "created", "updated",
    "year", "month", "day", "hour", "minute" ]

/-! ## Regular-expression shapes used by the code

Every regex the program matches against a parameter name has one of five
shapes; each is embedded with Python `re.match` semantics (anchored at the
start only; `.` does not match a newline; `$` also matches just before one
trailing newline; case-insensitivity is realised by lower-casing the input,
all pattern literals being lower-case ASCII). -/

inductive ReSpec where
  /-- `^w.*` — also `^w` followed by nothing: a literal prefix. -/
  | pfx (w : String)
  /-- `.*w.*` — `w` occurs, starting before any newline. -/
  | sub (w : String)
  /-- `.*w$` — the name ends with `w` (a final newline allowed), with no
  newline before it. -/
  | sfx (w : String)
  /-- `^a$|^b$|...` — exactly one of the listed words. -/
  | lit (ws : List String)
  /-- `^_+$` — one or more underscores and nothing else. -/
  | uscore
  deriving Repr, DecidableEq

/-- `re.match(pattern, s)` truthiness for the five shapes. -/
def ReSpec.matches : ReSpec → String → Bool
  | .pfx w, s => strStarts s w
  | .sub w, s => pyIn w (firstLine s)
  | .sfx w, s =>
    let t := stripNl s
    strEnds t w && !(strDropRight t w.data.length).data.contains '\n'
  | .lit ws, s => ws.contains (stripNl s)
  | .uscore, s =>
    let t := stripNl s
    !t.data.isEmpty && t.data.all (fun c => c = '_')

/-- `ParameterFilter.boring_patterns`, in source order
(`^utm_.*`, `^ga_.*`, `^fb_.*`, `^ig_.*`, `^tw_.*`, `^li_.*`,
`.*_tracking$`, `.*_track$`, `.*_ref$`, `.*_source$`, `.*_campaign$`,
`.*_medium$`, `^session.*`, `^track.*`, `^cache.*`). -/
def boring_patterns : List ReSpec :=
  [ .pfx "utm_", .pfx "ga_", .pfx "fb_", .pfx "ig_", .pfx "tw_", .pfx "li_",
    .sfx "_tracking", .sfx "_track", .sfx "_ref", .sfx "_source",
    .sfx "_campaign", .sfx "_medium",
    .pfx "session", .pfx "track", .pfx "cache" ]

/-- Does the (already lower-cased) name match one of the compiled boring
wildcard patterns? -/
def matchesBoringPattern (s : String) : Bool :=
  boring_patterns.any (fun p => p.matches s)

/-- The per-parameter rejection test of `ParameterFilter.filter_parameters`,
with `extraBoring` standing for caller-supplied `--custom-filter` names and
names loaded from a boring-list file (both merged into
`self.boring_params` by `_load_boring_parameters`). -/
def isBoringParam (extraBoring : List String) (p : String) : Bool :=
  (default_boring_params ++ extraBoring).contains (lowerStr p) ||
    matchesBoringPattern (lowerStr p)

/-- `ParameterFilter.filter_parameters` with an extended boring set. -/
def filter_parametersWith (extraBoring : List String) (params : List String) :
    List String :=
  params.filter (fun p => !isBoringParam extraBoring p)

/-- `ParameterFilter.filter_parameters` in the default configuration
(no custom filter list, no boring-list file). -/
def filter_parameters (params : List String) : List String :=
  filter_parametersWith [] params

/-- The characters of `"&".join(f"{param}={placeholder}" for param in ns)`. -/
def joinPairs (placeholder : String) : List String → List Char
  | [] => []
  | n :: rest =>
    match rest with
    | [] => n.data ++ '=' :: placeholder.data
    | _ :: _ => n.data ++ '=' :: placeholder.data ++ '&' :: joinPairs placeholder rest

/-- `ParameterFilter.create_cleaned_url`: re-parse the URL, replace its
query by `name=placeholder` pairs joined with `&`, and re-assemble; if
parsing fails the original URL is returned unchanged. -/
def create_cleaned_url (url : String) (parameters : List String)
    (placeholder : String := "FUZZ") : String :=
  match urlsplitE url with
  | none => url
  | some r =>
    urlunsplit r.scheme r.netloc r.path
      (String.mk (joinPairs placeholder parameters)) r.fragment

/-- One extract→filter→clean pipeline step of `SpiderXCLI._process_urls`
applied to a single URL with default filtering enabled. -/
def filter_clean_step (placeholder : String) (url : String) : String :=
  create_cleaned_url url (filter_parameters (extract_parameters url)) placeholder

/-! ## `ParameterIntelligence` (spiderx/advanced_features.py) -/

/-- `ParameterIntelligence.param_categories`, in dict insertion order. -/
def param_categories : List (String × List String) :=
  [ ("authentication",
      ["auth", "token", "key", "password", "pass", "login", "user", "username"]),
    ("database",
      ["id", "uid", "product_id", "user_id", "item_id", "order_id", "post_id"]),
    ("search", ["search", "query", "q", "keyword", "term", "find", "lookup"]),
    ("navigation", ["page", "limit", "offset", "sort", "order", "direction"]),
    ("filters", ["category", "type", "filter", "status", "state", "tag"]),
    ("debug", ["debug", "test", "dev", "trace", "verbose", "log", "error"]),
    ("file_operations",
      ["file", "path", "filename", "upload", "download", "attachment"]),
    ("redirects", ["redirect", "url", "next", "return", "continue", "goto"]) ]

/-- `ParameterIntelligence._categorize_parameter`: the first category (in
table order) one of whose keywords occurs in the lower-cased name, else
`"unknown"`. -/
def categorize_parameter (param : String) : String :=
  let pl := lowerStr param
  match param_categories.find? (fun cat => cat.2.any (fun w => pyIn w pl)) with
  | some cat => cat.1
  | none => "unknown"

/-- `ParameterIntelligence.risk_patterns`, in dict insertion order. -/
def risk_patterns : List (String × List String) :=
  [ ("critical", ["password", "secret", "key", "token", "auth"]),
    ("high", ["admin", "user", "id", "search", "query", "file", "path"]),
    ("medium", ["page", "sort", "filter", "category", "type"]),
    ("low", ["lang", "theme", "view", "format"]) ]

/-- `ParameterIntelligence._assess_risk_level`: first risk level (in table
order) one of whose keywords occurs in the lower-cased name, else `"low"`. -/
def assess_risk_level (param : String) : String :=
  let pl := lowerStr param
  match risk_patterns.find? (fun r => r.2.any (fun w => pyIn w pl)) with
  | some r => r.1
  | none => "low"

/-! ## `AdvancedFiltering` (spiderx/advanced_features.py)

Confidence weights are Python float literals, each an exact multiple of
`0.05`; they are embedded as *integer hundredths* (`0.95 ↦ 95 : ℤ`) so
that all score arithmetic is exact and kernel-computable.  The scaling
`x ↦ 100·x` preserves every comparison, and no attainable score
difference equals the threshold (all differences are multiples of 5 and
never 70), so exact arithmetic and Python binary-float arithmetic make
identical keep/reject decisions. -/

/-- `AdvancedFiltering.advanced_boring_patterns` with their confidence
scores in hundredths, in dict insertion order. -/
def advanced_boring_patterns : List (ReSpec × ℤ) :=
  [ (.pfx "utm_", 95), (.pfx "ga_", 95), (.pfx "_ga", 95),
    (.sub "tracking", 90), (.sub "analytics", 90),
    (.pfx "session", 90), (.sub "sess", 85), (.lit ["sid"], 90),
    (.pfx "cache", 85), (.uscore, 90),
    (.lit ["ts", "timestamp"], 85), (.lit ["v", "version"], 80),
    (.lit ["ref", "referrer"], 80), (.lit ["fbclid", "gclid"], 95),
    (.pfx "share", 75) ]

/-- `AdvancedFiltering.interesting_patterns` with their confidence scores
in hundredths, in dict insertion order. -/
def interesting_patterns : List (ReSpec × ℤ) :=
  [ (.sub "search", 95), (.sub "query", 95), (.sub "admin", 90),
    (.sub "user", 85), (.sfx "id", 80), (.sub "key", 90),
    (.sub "token", 90), (.sub "auth", 90), (.sub "file", 85),
    (.sub "path", 85) ]

/-- Fold of `max_score = max(max_score, confidence)` over the matching
patterns, starting from `0.0` — the loop shared by
`_calculate_boring_score` and `_calculate_interesting_score`
(`re.IGNORECASE` is realised by matching against the lower-cased name). -/
def maxMatchScore (pats : List (ReSpec × ℤ)) (s : String) : ℤ :=
  pats.foldl (fun m pc => if pc.1.matches s then max m pc.2 else m) 0

/-- `AdvancedFiltering._calculate_boring_score` (in hundredths). -/
def calculate_boring_score (param : String) : ℤ :=
  maxMatchScore advanced_boring_patterns (lowerStr param)

/-- `AdvancedFiltering._calculate_interesting_score` (in hundredths):
maximal matching confidence plus `0.1 ↦ 10` for names longer than 6
characters plus `0.05 ↦ 5` for names containing `_` or `-`. -/
def calculate_interesting_score (param : String) : ℤ :=
  maxMatchScore interesting_patterns (lowerStr param) +
    (if param.data.length > 6 then 10 else 0) +
    (if param.data.contains '_' || param.data.contains '-' then 5 else 0)

/-- The default `threshold` argument of
`AdvancedFiltering.smart_filter_parameters` (`0.7`, in hundredths). -/
def default_smart_threshold : ℤ := 70

/-- `AdvancedFiltering.smart_filter_parameters` (kept parameters only; the
input set is carried as a list, membership being what the claims are
about): a parameter is kept iff
`interesting_score - boring_score >= threshold`. -/
def smart_filter_parameters (params : List String)
    (threshold : ℤ := default_smart_threshold) : List String :=
  params.filter (fun p =>
    threshold ≤ calculate_interesting_score p - calculate_boring_score p)

/-! ## `SpiderXCLI._process_urls` (spiderx/cli_core.py) -/

/-- The enriched URL records produced by `SourceManager.fetch_from_source`. -/
structure UrlData where
  url : String
  domain : String
  source : String
  deriving Repr, DecidableEq

/-- The record built for each surviving URL by `SpiderXCLI._process_urls`. -/
structure ProcessedURL where
  original_url : String
  cleaned_url : String
  domain : String
  source : String
  parameters : List String
  param_count : Nat
  deriving Repr, DecidableEq

/-- `SpiderXCLI._process_urls`: extract each URL's parameters, skip URLs
without any, apply `filter_parameters` unless `--no-filter` was given
(skipping URLs whose parameters are all boring), and build the cleaned URL
with the configured placeholder. -/
def process_urls (noFilter : Bool) (placeholder : String) :
    List UrlData → List ProcessedURL
  | [] => []
  | ud :: rest =>
    let params := extract_parameters ud.url
    if params.isEmpty then process_urls noFilter placeholder rest
    else
      let params' := if noFilter then params else filter_parameters params
      if params'.isEmpty then process_urls noFilter placeholder rest
      else
        { original_url := ud.url,
          cleaned_url := create_cleaned_url ud.url params' placeholder,
          domain := ud.domain, source := ud.source,
          parameters := params', param_count := params'.length } ::
          process_urls noFilter placeholder rest

/-! ## `SpiderXCLI._process_domain` (spiderx/cli_core.py)

The network outcome of one source's `fetch_from_source` call is abstracted
as an `Except`: `.error` models the call raising, `.ok urls` models it
returning a URL list. -/

/-- The per-source counters of `self.results['source_stats'][name]`
(a `defaultdict(int)`: missing keys read as 0). -/
structure SourceStats where
  total_urls : Nat
  errors : Nat
  deriving Repr, DecidableEq

/-- The accumulator state of one `_process_domain` run. -/
structure DomainRun where
  urls : List UrlData
  stats : String → SourceStats

/-- One iteration of the `for source_name in sources` loop of
`_process_domain`: a successful fetch extends `domain_urls` and adds the
URL count to the source's `total_urls`; a raising fetch is caught and adds
one to the source's `errors`. -/
def processSourceStep (fetch : String → Except String (List UrlData))
    (acc : DomainRun) (s : String) : DomainRun :=
  match fetch s with
  | .ok urls =>
    { urls := acc.urls ++ urls,
      stats := fun n => if n = s then
          { total_urls := (acc.stats n).total_urls + urls.length,
            errors := (acc.stats n).errors }
        else acc.stats n }
  | .error _ =>
    { urls := acc.urls,
      stats := fun n => if n = s then
          { total_urls := (acc.stats n).total_urls,
            errors := (acc.stats n).errors + 1 }
        else acc.stats n }

/-- `SpiderXCLI._process_domain` for one domain: run the enabled sources in
order, isolating each one's failure. -/
def process_domain (fetch : String → Except String (List UrlData))
    (sources : List String) : DomainRun :=
  sources.foldl (processSourceStep fetch)
    { urls := [], stats := fun _ => { total_urls := 0, errors := 0 } }

/-- The URLs a successful fetch contributes (`[]` for a raising fetch). -/
def okUrls (fetch : String → Except String (List UrlData)) (s : String) :
    List UrlData :=
  match fetch s with
  | .ok urls => urls
  | .error _ => []

/-- The error count one fetch outcome contributes. -/
def errCount (fetch : String → Except String (List UrlData)) (s : String) : Nat :=
  match fetch s with
  | .ok _ => 0
  | .error _ => 1

/-! ## `CrawlerSource` (spiderx/sources/crawler.py) -/

/-- `CrawlerSource._is_same_domain`: the URL's netloc equals the target
domain or ends with `"." + domain`; any parse failure counts as `False`. -/
def is_same_domain (url domain : String) : Bool :=
  match urlsplitE url with
  | none => false
  | some r => r.netloc = domain || strEnds r.netloc ("." ++ domain)

/-- The seed URLs of `CrawlerSource.fetch_urls` (homepage plus conventional
entry points). -/
def start_urls (domain : String) : List String :=
  [ "https://" ++ domain,
    "https://" ++ domain ++ "/search",
    "https://" ++ domain ++ "/products",
    "https://" ++ domain ++ "/shop",
    "https://" ++ domain ++ "/category",
    "https://" ++ domain ++ "/api" ]

/-- Static data of one crawl run: `pageLinks u` abstracts the anchor targets
(`soup.find_all('a', href=True)`, resolved by `urljoin`) of the page at `u`;
`maxDepth`/`maxPages` are `crawl_depth`/`crawl_pages`. -/
structure CrawlCfg where
  pageLinks : String → List String
  maxDepth : Nat
  maxPages : Nat
  domain : String

/-- Mutable state of one crawl run: `visited` is `self.visited_urls` in
insertion order (one entry per issued page fetch), `pending` the multiset of
`_crawl_recursive` tasks not yet executed, each with its `depth` argument. -/
structure CrawlState where
  visited : List String
  pending : List (String × Nat)
  deriving Repr

/-- The recursion tasks a visited page spawns: only when `depth < max_depth`,
only for the first 10 links, and only for links on the crawl domain.
(The code also re-checks `len(visited) < max_pages` when creating each task,
but that read races with sibling tasks; the model conservatively omits it,
which only enlarges the set of reachable states.) -/
def childTasks (cfg : CrawlCfg) (u : String) (d : Nat) : List (String × Nat) :=
  if d < cfg.maxDepth then
    (((cfg.pageLinks u).take 10).filter (fun l => is_same_domain l cfg.domain)).map
      (fun l => (l, d + 1))
  else []

/-- One scheduling step of the crawl, from the body of
`CrawlerSource._crawl_recursive`.  The asyncio event loop runs exactly one
task between suspension points, in an arbitrary order, so a step picks an
arbitrary pending task: the task either returns immediately (`drop`: depth
exhausted, page budget reached, or URL already visited), or fetches the URL
after atomically recording it as visited — with the page's links spawned as
new tasks (`visit`) or nothing spawned when the request fails or returns
non-HTML (`visitFail`).  The check-then-add on `visited_urls` contains no
`await`, so it is atomic in the event loop, which the `visit`/`visitFail`
preconditions reflect. -/
inductive CrawlStep (cfg : CrawlCfg) : CrawlState → CrawlState → Prop
  | drop (v : List String) (p₁ p₂ : List (String × Nat)) (u : String) (d : Nat) :
      cfg.maxDepth < d ∨ cfg.maxPages ≤ v.length ∨ u ∈ v →
      CrawlStep cfg ⟨v, p₁ ++ (u, d) :: p₂⟩ ⟨v, p₁ ++ p₂⟩
  | visit (v : List String) (p₁ p₂ : List (String × Nat)) (u : String) (d : Nat) :
      d ≤ cfg.maxDepth → v.length < cfg.maxPages → u ∉ v →
      CrawlStep cfg ⟨v, p₁ ++ (u, d) :: p₂⟩
        ⟨v ++ [u], p₁ ++ p₂ ++ childTasks cfg u d⟩
  | visitFail (v : List String) (p₁ p₂ : List (String × Nat)) (u : String) (d : Nat) :
      d ≤ cfg.maxDepth → v.length < cfg.maxPages → u ∉ v →
      CrawlStep cfg ⟨v, p₁ ++ (u, d) :: p₂⟩ ⟨v ++ [u], p₁ ++ p₂⟩

/-- The initial state of `CrawlerSource.fetch_urls`: nothing visited, the
seed URLs pending at depth 0.  (The code crawls the seeds one after the
other with an early break once `max_pages` is reached; every behaviour of
that loop is a behaviour of this more permissive initial task pool.) -/
def crawlInit (cfg : CrawlCfg) : CrawlState :=
  ⟨[], (start_urls cfg.domain).map (fun u => (u, 0))⟩

/-- States one crawl run can reach. -/
def CrawlReachable (cfg : CrawlCfg) (s : CrawlState) : Prop :=
  Relation.ReflTransGen (CrawlStep cfg) (crawlInit cfg) s

/-! ## `SitemapSource` (spiderx/sources/sitemap.py) -/

/-- `SitemapSource._parse_sitemap_content`, with `ET.fromstring` plus the
namespaced `<url><loc>` extraction abstracted as `xmlLocs` (returning
`none` where `ET.fromstring` raises `ParseError`, and the stripped `<loc>`
texts otherwise): XML `<loc>` entries are kept when they contain `?` and
contain the domain as a substring; on a parse error each line of the body
is kept when it starts with `http` and passes the same two tests. -/
def parse_sitemap_content (xmlLocs : String → Option (List String))
    (content : String) (domain : String) : List String :=
  match xmlLocs content with
  | some locs =>
    locs.filter (fun u => pyIn "?" u && pyIn domain u)
  | none =>
    ((splitAllChar '\n' content.data).map (fun l => String.mk l)).filterMap
      (fun l =>
        let t := strTrim l
        if strStarts t "http" && pyIn "?" t && pyIn domain t then some t
        else none)

/-- Proper (strict) subset relation between lists viewed as sets of
parameter names, as used by the specification's invariant. -/
def strictSubsetList (a b : List String) : Prop :=
  (∀ x ∈ a, x ∈ b) ∧ ∃ x ∈ b, x ∉ a

instance (a b : List String) : Decidable (strictSubsetList a b) := by
  unfold strictSubsetList; infer_instance

/-- The inductive invariant of one crawl run: the visit log has no
duplicates and respects the page budget, and every visited or pending URL
is a seed or on the crawl domain. -/
def CrawlInv (cfg : CrawlCfg) (st : CrawlState) : Prop :=
  st.visited.Nodup ∧ st.visited.length ≤ cfg.maxPages ∧
  (∀ u ∈ st.visited,
    u ∈ start_urls cfg.domain ∨ is_same_domain u cfg.domain = true) ∧
  (∀ ud ∈ st.pending,
    ud.1 ∈ start_urls cfg.domain ∨ is_same_domain ud.1 cfg.domain = true)

/-! ## Well-formedness predicates for the idempotence analysis (claim C4) -/

/-- A parameter name that survives a round trip through query-string
re-parsing: ASCII, free of the query metacharacters `&`, `=`, `%`, `+`,
of `#`, and of the control bytes `urlsplit` strips.  A name percent-encoding
one of these (e.g. `x%26y`) is decoded on extraction but written back raw
by `create_cleaned_url`, changing how the cleaned URL re-parses. -/
def PlainName (s : String) : Bool :=
  s.data.all (fun c =>
    c.toNat < 128 && c ≠ '&' && c ≠ '=' && c ≠ '%' && c ≠ '+' && c ≠ '#' &&
      notCtl c)

/-- A placeholder token that cannot break the query apart: free of `&`,
`#` and the control bytes `urlsplit` strips (the default `FUZZ` qualifies). -/
def PlainPlaceholder (s : String) : Bool :=
  s.data.all (fun c => c ≠ '&' && c ≠ '#' && notCtl c)

/-- Structural well-formedness of a parsed URL under which `urlunsplit`
inverts `urlsplit`: a non-empty, already lower-case scheme (ASCII letter
then scheme characters), a non-empty netloc free of `/?#`, brackets and
control bytes, an absolute (or empty) path free of `?#` and control bytes,
and a control-byte-free fragment.  Every well-formed `http(s)` URL parses
into such components. -/
def SplitWF (r : SplitResult) : Bool :=
  (match r.scheme.data with
   | [] => false
   | c0 :: ctl =>
     decide (c0.toNat < 128) && c0.isAlpha && decide (lowerChar c0 = c0) &&
       ctl.all (fun d => schemeChar d && decide (lowerChar d = d))) &&
  !r.netloc.data.isEmpty &&
  r.netloc.data.all (fun c =>
    notNetlocEnd c && c ≠ '[' && c ≠ ']' && notCtl c) &&
  (r.path.data.isEmpty || strStarts r.path "/") &&
  r.path.data.all (fun c => c ≠ '?' && c ≠ '#' && notCtl c) &&
  r.fragment.data.all notCtl

/-! ## Concrete witness inputs -/

/-- The single input record of the concrete C2 witness run. -/
def udW : UrlData :=
  { url := "https://api.example.com/users?id=1&key=2",
    domain := "api.example.com", source := "wayback" }

/-- The ProcessedURL the pipeline produces from `udW`. -/
def puW : ProcessedURL :=
  { original_url := "https://api.example.com/users?id=1&key=2",
    cleaned_url := "https://api.example.com/users?id=FUZZ&key=FUZZ",
    domain := "api.example.com", source := "wayback",
    parameters := ["id", "key"], param_count := 2 }

/-- The fetch outcomes of a concrete four-source run used to witness C9:
`wayback` and `crawl` raise, `sitemap` returns no URLs, `js` returns one. -/
def fetchW : String → Except String (List UrlData) := fun s =>
  if s = "js" then
    Except.ok [{ url := "https://shop.example.com/item?pid=7",
                 domain := "example.com", source := "js" }]
  else if s = "sitemap" then Except.ok []
  else Except.error (s ++ " source error: timeout")

/-- Crawl configuration of the concrete C7 witness run. -/
def cfgW : CrawlCfg :=
  { pageLinks := fun _ => ["https://example.com/item?id=1"],
    maxDepth := 2, maxPages := 20, domain := "example.com" }

/-- The five seed tasks left pending after the witness run visits the
homepage seed. -/
def pendW : List (String × Nat) :=
  [ ("https://example.com/search", 0), ("https://example.com/products", 0),
    ("https://example.com/shop", 0), ("https://example.com/category", 0),
    ("https://example.com/api", 0) ]

/-- The state of the witness run after its first visit. -/
def stW : CrawlState :=
  ⟨["https://example.com"], pendW ++ [("https://example.com/item?id=1", 1)]⟩

/-! ## Supporting lemmas -/

theorem mem_dedupFirstAux {x : String} :
    ∀ {l seen : List String}, x ∈ dedupFirstAux l seen ↔ x ∈ l ∧ x ∉ seen := by
  intro l
  induction l with
  | nil => intro seen; simp [dedupFirstAux]
  | cons y ys ih =>
    intro seen
    by_cases hy : y ∈ seen
    · rw [dedupFirstAux, if_pos hy, ih]
      constructor
      · rintro ⟨hx, hns⟩
        exact ⟨List.mem_cons_of_mem _ hx, hns⟩
      · rintro ⟨hx, hns⟩
        rcases List.mem_cons.mp hx with h | h
        · exact absurd (h.symm ▸ hy) hns
        · exact ⟨h, hns⟩
    · rw [dedupFirstAux, if_neg hy, List.mem_cons, ih]
      constructor
      · rintro (rfl | ⟨hx, hns⟩)
        · exact ⟨List.mem_cons_self _ _, hy⟩
        · exact ⟨List.mem_cons_of_mem _ hx,
                 fun hs => hns (List.mem_cons_of_mem _ hs)⟩
      · rintro ⟨hx, hns⟩
        by_cases hxy : x = y
        · exact Or.inl hxy
        · rcases List.mem_cons.mp hx with h | h
          · exact absurd h hxy
          · refine Or.inr ⟨h, fun hs => ?_⟩
            rcases List.mem_cons.mp hs with h2 | h2
            · exact hxy h2
            · exact hns h2

theorem nodup_dedupFirstAux :
    ∀ (l seen : List String), (dedupFirstAux l seen).Nodup := by
  intro l
  induction l with
  | nil => intro seen; simp [dedupFirstAux]
  | cons y ys ih =>
    intro seen
    by_cases hy : y ∈ seen
    · simpa [dedupFirstAux, if_pos hy] using ih seen
    · rw [dedupFirstAux, if_neg hy]
      refine List.nodup_cons.mpr ⟨?_, ih (y :: seen)⟩
      intro hmem
      exact (mem_dedupFirstAux.mp hmem).2 (List.mem_cons_self _ _)

theorem sublist_dedupFirstAux :
    ∀ (l seen : List String), List.Sublist (dedupFirstAux l seen) l := by
  intro l
  induction l with
  | nil => intro seen; simp [dedupFirstAux]
  | cons y ys ih =>
    intro seen
    by_cases hy : y ∈ seen
    · rw [dedupFirstAux, if_pos hy]
      exact (ih seen).cons y
    · rw [dedupFirstAux, if_neg hy]
      exact (ih (y :: seen)).cons₂ y

theorem dedupFirstAux_eq_self :
    ∀ {l seen : List String}, l.Nodup → (∀ x ∈ l, x ∉ seen) →
      dedupFirstAux l seen = l := by
  intro l
  induction l with
  | nil => intro seen _ _; rfl
  | cons y ys ih =>
    intro seen hnd hdis
    have hy : y ∉ seen := hdis y (List.mem_cons_self _ _)
    rw [dedupFirstAux, if_neg hy, ih (List.nodup_cons.mp hnd).2]
    intro x hx
    simp only [List.mem_cons, not_or]
    exact ⟨fun h => (List.nodup_cons.mp hnd).1 (h ▸ hx),
           hdis x (List.mem_cons_of_mem _ hx)⟩

theorem strData_append (a b : String) : (a ++ b).data = a.data ++ b.data := by
  cases a; cases b; rfl

theorem strEta (s : String) : String.mk s.data = s := rfl

theorem splitOnFirst_not_mem {sep : Char} :
    ∀ {a : List Char}, sep ∉ a → splitOnFirst sep a = none := by
  intro a
  induction a with
  | nil => intro _; rfl
  | cons c cs ih =>
    intro h
    have hc : ¬c = sep := fun e => h (e ▸ List.mem_cons_self _ _)
    rw [splitOnFirst, if_neg hc, ih (fun hm => h (List.mem_cons_of_mem _ hm))]
    rfl

theorem splitOnFirst_append {sep : Char} :
    ∀ {a : List Char} (b : List Char), sep ∉ a →
      splitOnFirst sep (a ++ sep :: b) = some (a, b) := by
  intro a
  induction a with
  | nil => intro b _; simp [splitOnFirst]
  | cons c cs ih =>
    intro b h
    have hc : ¬c = sep := fun e => h (e ▸ List.mem_cons_self _ _)
    rw [List.cons_append, splitOnFirst, if_neg hc,
        ih b (fun hm => h (List.mem_cons_of_mem _ hm))]
    rfl

theorem takeWhile_all_append {p : Char → Bool} :
    ∀ {a b : List Char}, (∀ c ∈ a, p c = true) →
      (b = [] ∨ ∃ c cs, b = c :: cs ∧ p c = false) →
      (a ++ b).takeWhile p = a ∧ (a ++ b).dropWhile p = b := by
  intro a
  induction a with
  | nil =>
    intro b _ hb
    rcases hb with rfl | ⟨c, cs, rfl, hc⟩
    · exact ⟨rfl, rfl⟩
    · simp [List.takeWhile_cons, List.dropWhile_cons, hc]
  | cons x a' ih =>
    intro b ha hb
    have hx : p x = true := ha x (List.mem_cons_self _ _)
    have := ih (fun c hc => ha c (List.mem_cons_of_mem _ hc)) hb
    simp [List.takeWhile_cons, List.dropWhile_cons, hx, this.1, this.2]

theorem splitAllChar_no_sep {sep : Char} :
    ∀ {l : List Char}, sep ∉ l → splitAllChar sep l = [l] := by
  intro l
  induction l with
  | nil => intro _; rfl
  | cons c cs ih =>
    intro h
    have hc : ¬c = sep := fun e => h (e ▸ List.mem_cons_self _ _)
    rw [splitAllChar, if_neg hc, ih (fun hm => h (List.mem_cons_of_mem _ hm))]

theorem splitAllChar_append_sep {sep : Char} :
    ∀ {a : List Char} (b : List Char), sep ∉ a →
      splitAllChar sep (a ++ sep :: b) = a :: splitAllChar sep b := by
  intro a
  induction a with
  | nil => intro b _; simp [splitAllChar]
  | cons c cs ih =>
    intro b h
    have hc : ¬c = sep := fun e => h (e ▸ List.mem_cons_self _ _)
    rw [List.cons_append, splitAllChar, if_neg hc,
        ih b (fun hm => h (List.mem_cons_of_mem _ hm))]

theorem utf8EncodeChar_ascii {c : Char} (h : c.toNat < 128) :
    utf8EncodeChar c = [c.toNat] := by
  unfold utf8EncodeChar
  rw [if_pos h]

theorem pctGo_no_escape :
    ∀ (fuel : Nat) (cs : List Char), cs.length ≤ fuel → '%' ∉ cs →
      (∀ c ∈ cs, c.toNat < 128) → pctGo fuel cs = cs.map Char.toNat := by
  intro fuel
  induction fuel with
  | zero =>
    intro cs hlen _ _
    rw [Nat.le_zero, List.length_eq_zero] at hlen
    subst hlen
    rfl
  | succ n ih =>
    intro cs hlen hpc hascii
    cases cs with
    | nil => rfl
    | cons c rest =>
      have hc : ¬c = '%' := fun e => hpc (e ▸ List.mem_cons_self _ _)
      conv_lhs => rw [pctGo.eq_def]
      dsimp only
      rw [if_neg hc,
          utf8EncodeChar_ascii (hascii c (List.mem_cons_self _ _)),
          ih rest (Nat.le_of_succ_le_succ (by simpa using hlen))
            (fun hm => hpc (List.mem_cons_of_mem _ hm))
            (fun d hd => hascii d (List.mem_cons_of_mem _ hd))]
      rfl

theorem utf8DecodeGo_ascii :
    ∀ (fuel : Nat) (bs : List Nat), bs.length ≤ fuel → (∀ b ∈ bs, b < 128) →
      utf8DecodeGo fuel bs = bs.map Char.ofNat := by
  intro fuel
  induction fuel with
  | zero =>
    intro bs hlen _
    rw [Nat.le_zero, List.length_eq_zero] at hlen
    subst hlen
    rfl
  | succ n ih =>
    intro bs hlen hascii
    cases bs with
    | nil => rfl
    | cons b rest =>
      have hb : b < 0x80 := hascii b (List.mem_cons_self _ _)
      conv_lhs => rw [utf8DecodeGo.eq_def]
      dsimp only
      rw [if_pos hb,
          ih rest (Nat.le_of_succ_le_succ (by simpa using hlen))
            (fun d hd => hascii d (List.mem_cons_of_mem _ hd))]
      rfl

theorem unquotePlus_plain {s : String}
    (h : ∀ c ∈ s.data, c ≠ '%' ∧ c ≠ '+' ∧ c.toNat < 128) :
    unquotePlus s = s := by
  unfold unquotePlus
  have hmap : s.data.map (fun c => if c = '+' then ' ' else c) = s.data := by
    have h1 : s.data.map (fun c => if c = '+' then ' ' else c) = s.data.map id :=
      List.map_congr_left (fun c hc => by rw [if_neg (h c hc).2.1]; rfl)
    rw [h1, List.map_id]
  rw [hmap]
  unfold percentDecodeBytes
  rw [pctGo_no_escape s.data.length s.data (le_refl _)
      (fun hm => (h '%' hm).1 rfl) (fun c hc => (h c hc).2.2)]
  unfold utf8DecodeReplace
  rw [utf8DecodeGo_ascii _ _ (by rw [List.length_map])
      (fun b hb => by
        rcases List.mem_map.mp hb with ⟨c, hc, rfl⟩
        exact (h c hc).2.2)]
  rw [List.map_map]
  have h2 : s.data.map (Char.ofNat ∘ Char.toNat) = s.data.map id :=
    List.map_congr_left (fun c _ => Char.ofNat_toNat c)
  rw [h2, List.map_id]

theorem plainName_facts {n : String} (h : PlainName n = true) :
    ∀ c ∈ n.data, c.toNat < 128 ∧ c ≠ '&' ∧ c ≠ '=' ∧ c ≠ '%' ∧ c ≠ '+' ∧
      c ≠ '#' ∧ c ≠ '\t' ∧ c ≠ '\r' ∧ c ≠ '\n' := by
  intro c hc
  have h2 := List.all_eq_true.mp h c hc
  simp only [Bool.and_eq_true, decide_eq_true_eq, notCtl] at h2
  tauto

theorem plainPh_facts {s : String} (h : PlainPlaceholder s = true) :
    ∀ c ∈ s.data, c ≠ '&' ∧ c ≠ '#' ∧ c ≠ '\t' ∧ c ≠ '\r' ∧ c ≠ '\n' := by
  intro c hc
  have h2 := List.all_eq_true.mp h c hc
  simp only [Bool.and_eq_true, decide_eq_true_eq, notCtl] at h2
  tauto

theorem chunkName_pair (n ph : String) (hn : '=' ∉ n.data) :
    chunkName? (n.data ++ '=' :: ph.data) = some (unquotePlus n) := by
  have hgen : chunkName? (n.data ++ '=' :: ph.data) =
      some (unquotePlus (String.mk n.data)) := by
    have hsplit : splitOnFirst '=' (n.data ++ '=' :: ph.data) =
        some (n.data, ph.data) := splitOnFirst_append _ hn
    cases hd : n.data with
    | nil =>
      rw [hd] at hsplit
      simp only [hd, List.nil_append] at hsplit ⊢
      simp [chunkName?, hsplit]
    | cons c cs =>
      rw [hd] at hsplit
      simp only [hd, List.cons_append] at hsplit ⊢
      simp [chunkName?, hsplit]
  rw [hgen, strEta]

theorem splitAll_joinPairs (ph : String) (hph : '&' ∉ ph.data) :
    ∀ (ns : List String), ns ≠ [] → (∀ n ∈ ns, '&' ∉ n.data) →
      splitAllChar '&' (joinPairs ph ns) =
        ns.map (fun n => n.data ++ '=' :: ph.data) := by
  intro ns
  induction ns with
  | nil => intro h; exact absurd rfl h
  | cons n rest ih =>
    intro _ hns
    have hnpair : '&' ∉ (n.data ++ '=' :: ph.data) := by
      intro hm
      rcases List.mem_append.mp hm with hm | hm
      · exact hns n (List.mem_cons_self _ _) hm
      · rcases List.mem_cons.mp hm with hm | hm
        · exact absurd hm (by decide)
        · exact hph hm
    cases rest with
    | nil =>
      rw [joinPairs, splitAllChar_no_sep hnpair]
      rfl
    | cons m rest' =>
      rw [joinPairs]
      rw [splitAllChar_append_sep _ hnpair,
          ih (by simp) (fun x hx => hns x (List.mem_cons_of_mem _ hx))]
      rfl

theorem filterMap_chunk (ph : String) :
    ∀ (ns : List String), (∀ n ∈ ns, PlainName n = true) →
      (ns.map (fun n => n.data ++ '=' :: ph.data)).filterMap chunkName? = ns := by
  intro ns
  induction ns with
  | nil => intro _; rfl
  | cons n rest ih =>
    intro hns
    have hplain := hns n (List.mem_cons_self _ _)
    have hne : '=' ∉ n.data :=
      fun hm => (plainName_facts hplain '=' hm).2.2.1 rfl
    have hfix : unquotePlus n = n :=
      unquotePlus_plain (fun c hc =>
        ⟨(plainName_facts hplain c hc).2.2.2.1,
         (plainName_facts hplain c hc).2.2.2.2.1,
         (plainName_facts hplain c hc).1⟩)
    rw [List.map_cons, List.filterMap_cons, chunkName_pair n ph hne, hfix,
        ih (fun x hx => hns x (List.mem_cons_of_mem _ hx))]

theorem parseQslNames_joinPairs (ph : String) (ns : List String)
    (hns : ∀ n ∈ ns, PlainName n = true) (hph : PlainPlaceholder ph = true) :
    parseQslNames (String.mk (joinPairs ph ns)) = ns := by
  cases ns with
  | nil => rfl
  | cons n rest =>
    have hph' : '&' ∉ ph.data :=
      fun hm => (plainPh_facts hph '&' hm).1 rfl
    have hne : joinPairs ph (n :: rest) ≠ [] := by
      cases rest <;> simp [joinPairs]
    unfold parseQslNames
    rw [if_neg hne,
        splitAll_joinPairs ph hph' (n :: rest) (by simp)
          (fun x hx => fun hm => (plainName_facts (hns x hx) '&' hm).2.1 rfl),
        filterMap_chunk ph (n :: rest) hns]

theorem isAlpha_safe {c : Char} (h : c.isAlpha = true) :
    c ≠ ':' ∧ notCtl c = true := by
  refine ⟨fun e => absurd (e ▸ h) (by decide), ?_⟩
  by_cases h1 : c = '\t'
  · exact absurd (h1 ▸ h) (by decide)
  · by_cases h2 : c = '\r'
    · exact absurd (h2 ▸ h) (by decide)
    · by_cases h3 : c = '\n'
      · exact absurd (h3 ▸ h) (by decide)
      · simp [notCtl, h1, h2, h3]

theorem schemeChar_safe {c : Char} (h : schemeChar c = true) :
    c ≠ ':' ∧ notCtl c = true := by
  refine ⟨fun e => absurd (e ▸ h) (by decide), ?_⟩
  by_cases h1 : c = '\t'
  · exact absurd (h1 ▸ h) (by decide)
  · by_cases h2 : c = '\r'
    · exact absurd (h2 ▸ h) (by decide)
    · by_cases h3 : c = '\n'
      · exact absurd (h3 ▸ h) (by decide)
      · simp [notCtl, h1, h2, h3]

theorem strDataInj {s t : String} (h : s.data = t.data) : s = t := by
  cases s
  cases t
  cases h
  rfl

theorem mem_joinPairs (ph : String) :
    ∀ (ns : List String) (c : Char), c ∈ joinPairs ph ns →
      c = '&' ∨ c = '=' ∨ (∃ n ∈ ns, c ∈ n.data) ∨ c ∈ ph.data := by
  intro ns
  induction ns with
  | nil => intro c hc; exact absurd hc (List.not_mem_nil c)
  | cons n rest ih =>
    intro c hc
    cases rest with
    | nil =>
      rw [joinPairs] at hc
      rcases List.mem_append.mp hc with hc | hc
      · exact Or.inr (Or.inr (Or.inl ⟨n, List.mem_cons_self _ _, hc⟩))
      · rcases List.mem_cons.mp hc with rfl | hc
        · exact Or.inr (Or.inl rfl)
        · exact Or.inr (Or.inr (Or.inr hc))
    | cons m rest' =>
      rw [joinPairs] at hc
      rcases List.mem_append.mp hc with hc | hc
      · rcases List.mem_append.mp hc with hc | hc
        · exact Or.inr (Or.inr (Or.inl ⟨n, List.mem_cons_self _ _, hc⟩))
        · rcases List.mem_cons.mp hc with rfl | hc
          · exact Or.inr (Or.inl rfl)
          · exact Or.inr (Or.inr (Or.inr hc))
      · rcases List.mem_cons.mp hc with rfl | hc
        · exact Or.inl rfl
        · rcases ih c hc with hc | hc | ⟨x, hx, hcx⟩ | hc
          · exact Or.inl hc
          · exact Or.inr (Or.inl hc)
          · exact Or.inr (Or.inr (Or.inl ⟨x, List.mem_cons_of_mem _ hx, hcx⟩))
          · exact Or.inr (Or.inr (Or.inr hc))

/-- Splitting at the first `#` recovers a fragment appended to a
hash-free prefix (fragment present only when non-empty). -/
theorem splitFragmentCs_canonical (A F : List Char) (h : '#' ∉ A) :
    splitFragmentCs (A ++ (if F = [] then ([] : List Char) else '#' :: F)) =
      (A, F) := by
  by_cases hfe : F = []
  · subst hfe
    rw [if_pos rfl, List.append_nil]
    unfold splitFragmentCs
    rw [splitOnFirst_not_mem h]
  · rw [if_neg hfe]
    unfold splitFragmentCs
    rw [splitOnFirst_append F h]

/-- Splitting at the first `?` recovers a query appended to a
question-mark-free path (query present only when non-empty). -/
theorem splitQueryCs_canonical (P Q : List Char) (h : '?' ∉ P) :
    splitQueryCs (P ++ (if Q = [] then ([] : List Char) else '?' :: Q)) =
      (P, Q) := by
  by_cases hqe : Q = []
  · subst hqe
    rw [if_pos rfl, List.append_nil]
    unfold splitQueryCs
    rw [splitOnFirst_not_mem h]
  · rw [if_neg hqe]
    unfold splitQueryCs
    rw [splitOnFirst_append Q h]

/-- Parsing an assembled `scheme://netloc/path?query#fragment` string (with
query and fragment present only when non-empty) recovers the components. -/
theorem parse_assembled (c0 : Char) (ctl N P Q F : List Char)
    (hc0lt : c0.toNat < 128) (hc0a : c0.isAlpha = true)
    (hc0low : lowerChar c0 = c0)
    (hctl : ∀ d ∈ ctl, schemeChar d = true ∧ lowerChar d = d)
    (hN : N ≠ [])
    (hNc : ∀ c ∈ N, notNetlocEnd c = true ∧ c ≠ '[' ∧ c ≠ ']' ∧ notCtl c = true)
    (hP : P = [] ∨ ∃ t, P = '/' :: t)
    (hPc : ∀ c ∈ P, c ≠ '?' ∧ c ≠ '#' ∧ notCtl c = true)
    (hQc : ∀ c ∈ Q, c ≠ '#' ∧ notCtl c = true)
    (hFc : ∀ c ∈ F, notCtl c = true) :
    urlsplitE (String.mk ((c0 :: ctl) ++ ':' :: '/' :: '/' ::
        (N ++ (P ++ ((if Q = [] then ([] : List Char) else '?' :: Q) ++
          (if F = [] then ([] : List Char) else '#' :: F)))))) =
      some ⟨String.mk (c0 :: ctl), String.mk N, String.mk P,
            String.mk Q, String.mk F⟩ := by
  have hqpart : ∀ c ∈ (if Q = [] then ([] : List Char) else '?' :: Q),
      c ≠ '#' ∧ notCtl c = true := by
    intro c hc
    by_cases hqe : Q = []
    · rw [if_pos hqe] at hc
      exact absurd hc (List.not_mem_nil c)
    · rw [if_neg hqe] at hc
      rcases List.mem_cons.mp hc with rfl | hc
      · exact ⟨by decide, by decide⟩
      · exact hQc c hc
  have hfpart : ∀ c ∈ (if F = [] then ([] : List Char) else '#' :: F),
      notCtl c = true := by
    intro c hc
    by_cases hfe : F = []
    · rw [if_pos hfe] at hc
      exact absurd hc (List.not_mem_nil c)
    · rw [if_neg hfe] at hc
      rcases List.mem_cons.mp hc with rfl | hc
      · decide
      · exact hFc c hc
  have hfilter : List.filter notCtl ((c0 :: ctl) ++ ':' :: '/' :: '/' ::
      (N ++ (P ++ ((if Q = [] then ([] : List Char) else '?' :: Q) ++
        (if F = [] then ([] : List Char) else '#' :: F))))) =
      (c0 :: ctl) ++ ':' :: '/' :: '/' ::
      (N ++ (P ++ ((if Q = [] then ([] : List Char) else '?' :: Q) ++
        (if F = [] then ([] : List Char) else '#' :: F)))) := by
    rw [List.filter_eq_self]
    intro c hc
    rcases List.mem_append.mp hc with hc | hc
    · rcases List.mem_cons.mp hc with rfl | hc
      · exact (isAlpha_safe hc0a).2
      · exact (schemeChar_safe (hctl c hc).1).2
    · rcases List.mem_cons.mp hc with rfl | hc
      · decide
      · rcases List.mem_cons.mp hc with rfl | hc
        · decide
        · rcases List.mem_cons.mp hc with rfl | hc
          · decide
          · rcases List.mem_append.mp hc with hc | hc
            · exact (hNc c hc).2.2.2
            · rcases List.mem_append.mp hc with hc | hc
              · exact (hPc c hc).2.2
              · rcases List.mem_append.mp hc with hc | hc
                · exact (hqpart c hc).2
                · exact hfpart c hc
  have hcolon : ':' ∉ (c0 :: ctl) := by
    intro hm
    rcases List.mem_cons.mp hm with hm | hm
    · exact (isAlpha_safe hc0a).1 hm.symm
    · exact (schemeChar_safe (hctl ':' hm).1).1 rfl
  have hsch : splitScheme ((c0 :: ctl) ++ ':' :: '/' :: '/' ::
      (N ++ (P ++ ((if Q = [] then ([] : List Char) else '?' :: Q) ++
        (if F = [] then ([] : List Char) else '#' :: F))))) =
      (c0 :: ctl, '/' :: '/' ::
      (N ++ (P ++ ((if Q = [] then ([] : List Char) else '?' :: Q) ++
        (if F = [] then ([] : List Char) else '#' :: F))))) := by
    unfold splitScheme
    rw [splitOnFirst_append _ hcolon]
    dsimp only
    rw [if_pos ⟨hc0lt, hc0a, List.all_eq_true.mpr (fun d hd => (hctl d hd).1)⟩]
    have hmap : (c0 :: ctl).map lowerChar = c0 :: ctl := by
      have h1 : (c0 :: ctl).map lowerChar = (c0 :: ctl).map id :=
        List.map_congr_left (fun d hd => by
          rcases List.mem_cons.mp hd with rfl | hd
          · exact hc0low
          · exact (hctl d hd).2)
      rw [h1, List.map_id]
    rw [hmap]
  have htail1 : (P ++ ((if Q = [] then ([] : List Char) else '?' :: Q) ++
      (if F = [] then ([] : List Char) else '#' :: F))) = [] ∨
      ∃ c cs, (P ++ ((if Q = [] then ([] : List Char) else '?' :: Q) ++
        (if F = [] then ([] : List Char) else '#' :: F))) = c :: cs ∧
        notNetlocEnd c = false := by
    rcases hP with rfl | ⟨t, rfl⟩
    · by_cases hqe : Q = []
      · rw [if_pos hqe]
        by_cases hfe : F = []
        · rw [if_pos hfe]
          exact Or.inl rfl
        · rw [if_neg hfe]
          exact Or.inr ⟨'#', F, by simp, by decide⟩
      · rw [if_neg hqe]
        exact Or.inr ⟨'?', Q ++ (if F = [] then ([] : List Char) else '#' :: F),
          by simp, by decide⟩
    · exact Or.inr ⟨'/', t ++ ((if Q = [] then ([] : List Char) else '?' :: Q) ++
        (if F = [] then ([] : List Char) else '#' :: F)), by simp, by decide⟩
  have hnet : splitNetlocCs ('/' :: '/' ::
      (N ++ (P ++ ((if Q = [] then ([] : List Char) else '?' :: Q) ++
        (if F = [] then ([] : List Char) else '#' :: F))))) =
      (N, P ++ ((if Q = [] then ([] : List Char) else '?' :: Q) ++
        (if F = [] then ([] : List Char) else '#' :: F))) := by
    unfold splitNetlocCs
    dsimp only
    rw [if_pos ⟨rfl, rfl⟩]
    have h := takeWhile_all_append (p := notNetlocEnd)
      (fun c hc => (hNc c hc).1) htail1
    rw [h.1, h.2]
  have hbr : ¬(('[' ∈ N ∧ ']' ∉ N) ∨ (']' ∈ N ∧ '[' ∉ N)) := by
    rintro (⟨h1, _⟩ | ⟨h1, _⟩)
    · exact (hNc '[' h1).2.1 rfl
    · exact (hNc ']' h1).2.2.1 rfl
  have hnohash : '#' ∉ P ++ (if Q = [] then ([] : List Char) else '?' :: Q) := by
    intro hm
    rcases List.mem_append.mp hm with hm | hm
    · exact (hPc '#' hm).2.1 rfl
    · exact (hqpart '#' hm).1 rfl
  have hfrag : splitFragmentCs (P ++ ((if Q = [] then ([] : List Char) else '?' :: Q) ++
      (if F = [] then ([] : List Char) else '#' :: F))) =
      (P ++ (if Q = [] then ([] : List Char) else '?' :: Q), F) := by
    rw [← List.append_assoc]
    exact splitFragmentCs_canonical _ F hnohash
  have hnoq : '?' ∉ P := fun hm => (hPc '?' hm).1 rfl
  have hquery := splitQueryCs_canonical P Q hnoq
  unfold urlsplitE
  dsimp only
  rw [hfilter, hsch]
  dsimp only
  rw [hnet]
  dsimp only
  rw [if_neg hbr, hfrag]
  dsimp only
  rw [hquery]

/-- Under the structural conditions, `urlunsplit` produces exactly the
`scheme://netloc/path?query#fragment` concatenation (query and fragment
present only when non-empty). -/
theorem urlunsplit_data (scheme netloc path query fragment : String)
    (hnet : netloc ≠ "") (hpath : path.data = [] ∨ ∃ t, path.data = '/' :: t)
    (hscheme : scheme.data ≠ []) :
    urlunsplit scheme netloc path query fragment =
      String.mk (scheme.data ++ ':' :: '/' :: '/' ::
        (netloc.data ++ (path.data ++
          ((if query.data = [] then ([] : List Char) else '?' :: query.data) ++
           (if fragment.data = [] then ([] : List Char)
            else '#' :: fragment.data))))) := by
  unfold urlunsplit
  have hinner : ¬(path ≠ "" ∧ ¬strStarts path "/") := by
    rintro ⟨hne, hnst⟩
    rcases hpath with hp | ⟨t, ht⟩
    · exact hne (strDataInj (by rw [hp]))
    · apply hnst
      unfold strStarts
      rw [ht]
      simp [List.isPrefixOf]
  have hschne : scheme ≠ "" := fun e => hscheme (by rw [e])
  dsimp only
  rw [if_pos (Or.inl hnet), if_neg hinner, if_pos hschne]
  by_cases hq : query.data = []
  · have hq' : ¬query ≠ "" := fun h => h (strDataInj hq)
    rw [if_neg hq', if_pos hq]
    by_cases hf : fragment.data = []
    · have hf' : ¬fragment ≠ "" := fun h => h (strDataInj hf)
      rw [if_neg hf', if_pos hf]
      apply strDataInj
      simp [strData_append]
    · have hf' : fragment ≠ "" := fun e => hf (by rw [e])
      rw [if_pos hf', if_neg hf]
      apply strDataInj
      simp [strData_append]
  · have hq' : query ≠ "" := fun e => hq (by rw [e])
    rw [if_pos hq', if_neg hq]
    by_cases hf : fragment.data = []
    · have hf' : ¬fragment ≠ "" := fun h => h (strDataInj hf)
      rw [if_neg hf', if_pos hf]
      apply strDataInj
      simp [strData_append]
    · have hf' : fragment ≠ "" := fun e => hf (by rw [e])
      rw [if_pos hf', if_neg hf]
      apply strDataInj
      simp [strData_append]

/-- `urlsplit` inverts `urlunsplit` on structurally well-formed components
with a hash-free query. -/
theorem urlsplit_urlunsplit (scheme netloc path query fragment : String)
    (hwf : SplitWF ⟨scheme, netloc, path, query, fragment⟩ = true)
    (hq : ∀ c ∈ query.data, c ≠ '#' ∧ notCtl c = true) :
    urlsplitE (urlunsplit scheme netloc path query fragment) =
      some ⟨scheme, netloc, path, query, fragment⟩ := by
  simp only [SplitWF, Bool.and_eq_true] at hwf
  obtain ⟨⟨⟨⟨⟨hA, hB⟩, hC⟩, hD⟩, hE⟩, hF⟩ := hwf
  have hNne : netloc.data ≠ [] := by
    intro e
    rw [e] at hB
    simp at hB
  have hNc : ∀ c ∈ netloc.data,
      notNetlocEnd c = true ∧ c ≠ '[' ∧ c ≠ ']' ∧ notCtl c = true := by
    intro c hc
    have h2 := List.all_eq_true.mp hC c hc
    simp only [Bool.and_eq_true, decide_eq_true_eq] at h2
    tauto
  have hPfacts : path.data = [] ∨ ∃ t, path.data = '/' :: t := by
    rcases (Bool.or_eq_true _ _) ▸ hD with h | h
    · exact Or.inl (by simpa using h)
    · right
      unfold strStarts at h
      cases hpd : path.data with
      | nil =>
        rw [hpd] at h
        simp [List.isPrefixOf] at h
      | cons c cs =>
        rw [hpd] at h
        have hcc : '/' = c := by simpa [List.isPrefixOf] using h
        exact ⟨cs, by rw [hcc]⟩
  have hPc : ∀ c ∈ path.data, c ≠ '?' ∧ c ≠ '#' ∧ notCtl c = true := by
    intro c hc
    have h2 := List.all_eq_true.mp hE c hc
    simp only [Bool.and_eq_true, decide_eq_true_eq] at h2
    tauto
  have hFc : ∀ c ∈ fragment.data, notCtl c = true :=
    fun c hc => List.all_eq_true.mp hF c hc
  cases hs : scheme.data with
  | nil =>
    rw [hs] at hA
    simp at hA
  | cons c0 ctl =>
    rw [hs] at hA
    simp only [Bool.and_eq_true, decide_eq_true_eq] at hA
    obtain ⟨⟨⟨hc0lt, hc0a⟩, hc0low⟩, hctl0⟩ := hA
    have hctl : ∀ d ∈ ctl, schemeChar d = true ∧ lowerChar d = d := by
      intro d hd
      have h2 := List.all_eq_true.mp hctl0 d hd
      simp only [Bool.and_eq_true, decide_eq_true_eq] at h2
      exact h2
    have hnet : netloc ≠ "" := fun e => hNne (by rw [e])
    rw [urlunsplit_data scheme netloc path query fragment hnet hPfacts
        (by rw [hs]; exact List.cons_ne_nil c0 ctl)]
    have h := parse_assembled c0 ctl netloc.data path.data query.data
      fragment.data hc0lt hc0a hc0low hctl hNne hNc hPfacts hPc hq hFc
    rw [← hs] at h
    simpa only [strEta] using h

/-- C3: on input `https://example.com/search?q=python&category=programming&utm_source=google`
with default filtering the extractor finds `q`, `category`, `utm_source`;
exactly `q` and `category` are kept (`utm_source` is rejected), and the
pipeline's cleaned URL is exactly
`https://example.com/search?q=FUZZ&category=FUZZ`. -/
theorem scenarioA_filter_and_clean :
    extract_parameters
        "https://example.com/search?q=python&category=programming&utm_source=google" =
      ["q", "category", "utm_source"] ∧
    filter_parameters ["q", "category", "utm_source"] = ["q", "category"] ∧
    filter_clean_step "FUZZ"
        "https://example.com/search?q=python&category=programming&utm_source=google" =
      "https://example.com/search?q=FUZZ&category=FUZZ" :=
  ⟨rfl, rfl, rfl⟩

/-! ## Claim C1 (Scenario B) -/

/-- C1 counterexample: on
`https://api.example.com/users?id=123&format=json&key=secret`, default
binary filtering does *not* keep all three parameters: `format` is a member
of `default_boring_params` (filters.py line 47) and is rejected. -/
theorem scenarioB_counterexample :
    extract_parameters "https://api.example.com/users?id=123&format=json&key=secret" =
      ["id", "format", "key"] ∧
    "format" ∉ filter_parameters
      (extract_parameters "https://api.example.com/users?id=123&format=json&key=secret") := by
  decide

/-- C1 (amended): of the three extracted parameters `id`, `format`, `key`,
default binary filtering keeps exactly `id` and `key` (`format` is in the
default boring set), and the category tagger assigns `database` to `id`,
`unknown` to `format` and `authentication` to `key`. -/
theorem scenarioB_amended :
    extract_parameters "https://api.example.com/users?id=123&format=json&key=secret" =
      ["id", "format", "key"] ∧
    filter_parameters ["id", "format", "key"] = ["id", "key"] ∧
    categorize_parameter "id" = "database" ∧
    categorize_parameter "format" = "unknown" ∧
    categorize_parameter "key" = "authentication" :=
  ⟨rfl, rfl, rfl, rfl, rfl⟩

/-! ## Claim C6 (boring names are never kept) -/

/-- C6: a parameter whose lower-cased name lies in the default boring set,
or which matches one of the boring wildcard patterns, is never contained in
the output of `filter_parameters` — for every input list and every
caller-extended boring set. -/
theorem boring_param_never_kept (extra : List String) (n : String)
    (l : List String)
    (h : lowerStr n ∈ default_boring_params ∨
         matchesBoringPattern (lowerStr n) = true) :
    n ∉ filter_parametersWith extra l := by
  intro hmem
  have h2 := (List.mem_filter.mp hmem).2
  rw [Bool.not_eq_true', isBoringParam, Bool.or_eq_false_iff] at h2
  rcases h with h | h
  · have : (default_boring_params ++ extra).contains (lowerStr n) = true :=
      List.elem_iff.mpr (List.mem_append_left _ h)
    rw [this] at h2
    exact absurd h2.1 (by simp)
  · rw [h] at h2
    exact absurd h2.2 (by simp)

/-- Witness for C6 at a concrete input: `utm_source` is boring and indeed
absent from the filtered output. -/
theorem boring_param_never_kept_witness :
    "utm_source" ∉ filter_parametersWith [] ["utm_source", "q"] :=
  boring_param_never_kept [] "utm_source" ["utm_source", "q"]
    (Or.inl (by decide))

/-! ## Claim C5 (extractor: order, duplicates, failure behaviour) -/

/-- C5 counterexample: a malformed query string does *not* yield the empty
list — on the lone-percent query `%` the extractor returns `["%"]`
(`parse_qs` parses malformed queries best-effort; only a raising `urlparse`
yields `[]`). -/
theorem extract_malformed_counterexample :
    extract_parameters "https://example.com/?%" = ["%"] ∧
    extract_parameters "https://example.com/?%" ≠ [] := by
  decide

/-- C5 (amended): `extract_parameters` is total; its output never contains
duplicates and is the first-occurrence subsequence of the query's field
names (same members, in occurrence order); when `urlparse` raises (the URL
is unparseable) the result is `[]`.  Malformed query strings are parsed
best-effort and may yield non-empty results. -/
theorem extract_parameters_nodup_order (u : String) :
    (extract_parameters u).Nodup ∧
    (∀ r, urlsplitE u = some r →
      List.Sublist (extract_parameters u) (parseQslNames r.query) ∧
      ∀ n, n ∈ extract_parameters u ↔ n ∈ parseQslNames r.query) ∧
    (urlsplitE u = none → extract_parameters u = []) := by
  refine ⟨?_, ?_, ?_⟩
  · unfold extract_parameters
    cases h : urlsplitE u with
    | none => simp
    | some r => exact nodup_dedupFirstAux _ _
  · intro r hr
    unfold extract_parameters
    rw [hr]
    refine ⟨sublist_dedupFirstAux _ _, fun n => ?_⟩
    unfold parseQsKeys
    rw [mem_dedupFirstAux]
    simp
  · intro h
    unfold extract_parameters
    rw [h]

/-- Witness for C5 at a concrete input: the unparseable URL `http://[abc`
(mismatched IPv6 bracket, `urlparse` raises `ValueError`) yields `[]`. -/
theorem extract_parameters_nodup_order_witness :
    extract_parameters "http://[abc" = [] :=
  (extract_parameters_nodup_order "http://[abc").2.2 rfl

/-! ## Claim C2 (`kept_parameters` versus the original query) -/

/-- C2 counterexample: a ProcessedURL's kept parameters need not be a
*strict* subset of the original query's parameter names — when no parameter
is boring, all of them are kept. -/
theorem processed_not_strict_counterexample :
    ¬ (∀ pu ∈ process_urls false "FUZZ"
          [{ url := "https://api.example.com/users?id=1&key=2",
             domain := "api.example.com", source := "wayback" }],
        strictSubsetList pu.parameters (extract_parameters pu.original_url)) := by
  decide

/-- C2 (amended): for every ProcessedURL produced by the pipeline — with or
without filtering enabled — its kept parameters form a *non-empty* subset
(not necessarily strict) of the parameter names extracted from its
`original_url`, and `param_count` is their number. -/
theorem processed_params_subset (nf : Bool) (ph : String)
    (uds : List UrlData) (pu : ProcessedURL)
    (hpu : pu ∈ process_urls nf ph uds) :
    pu.parameters ≠ [] ∧
    (∀ p ∈ pu.parameters, p ∈ extract_parameters pu.original_url) ∧
    pu.param_count = pu.parameters.length := by
  induction uds with
  | nil => simp [process_urls] at hpu
  | cons ud rest ih =>
    simp only [process_urls] at hpu
    by_cases h1 : (extract_parameters ud.url).isEmpty
    · rw [if_pos h1] at hpu
      exact ih hpu
    · rw [if_neg h1] at hpu
      by_cases h2 : (if nf then extract_parameters ud.url
                     else filter_parameters (extract_parameters ud.url)).isEmpty
      · rw [if_pos h2] at hpu
        exact ih hpu
      · rw [if_neg h2] at hpu
        rcases List.mem_cons.mp hpu with rfl | hmem
        · refine ⟨by simpa using h2, ?_, rfl⟩
          intro p hp
          simp only at hp
          by_cases hnf : nf = true
          · rw [if_pos hnf] at hp
            exact hp
          · rw [if_neg hnf] at hp
            have hp' : p ∈ (extract_parameters ud.url).filter
                (fun q => !isBoringParam [] q) := hp
            exact (List.mem_filter.mp hp').1
        · exact ih hmem

/-- Witness for C2 at a concrete input. -/
theorem processed_params_subset_witness :
    puW.parameters ≠ [] ∧
    (∀ p ∈ puW.parameters, p ∈ extract_parameters puW.original_url) ∧
    puW.param_count = puW.parameters.length :=
  processed_params_subset false "FUZZ" [udW] puW (by decide)

/-! ## Claim C9 (per-source failure isolation) -/

/-- Per-field characterization of the `_process_domain` fold: each source
name accumulates `count · |okUrls|` fetched URLs and `count · errCount`
errors over the source list. -/
theorem process_domain_stats_foldl (fetch : String → Except String (List UrlData)) :
    ∀ (l : List String) (acc : DomainRun) (n : String),
      ((l.foldl (processSourceStep fetch) acc).stats n).total_urls
        = (acc.stats n).total_urls + l.count n * (okUrls fetch n).length ∧
      ((l.foldl (processSourceStep fetch) acc).stats n).errors
        = (acc.stats n).errors + l.count n * errCount fetch n := by
  intro l
  induction l with
  | nil => intro acc n; simp
  | cons s rest ih =>
    intro acc n
    rw [List.foldl_cons]
    obtain ⟨ht, he⟩ := ih (processSourceStep fetch acc s) n
    by_cases hns : n = s
    · subst hns
      refine ⟨?_, ?_⟩
      · rw [ht]
        cases hf : fetch n <;>
          simp [processSourceStep, hf, okUrls, List.count_cons] <;> ring
      · rw [he]
        cases hf : fetch n <;>
          simp [processSourceStep, hf, errCount, List.count_cons] <;> ring
    · refine ⟨?_, ?_⟩
      · rw [ht]
        cases hf : fetch s <;>
          simp [processSourceStep, hf, List.count_cons, hns]
      · rw [he]
        cases hf : fetch s <;>
          simp [processSourceStep, hf, List.count_cons, hns]

/-- URL-accumulator characterization of the `_process_domain` fold. -/
theorem process_domain_urls_foldl (fetch : String → Except String (List UrlData)) :
    ∀ (l : List String) (acc : DomainRun),
      (l.foldl (processSourceStep fetch) acc).urls
        = acc.urls ++ l.flatMap (okUrls fetch) := by
  intro l
  induction l with
  | nil => intro acc; simp
  | cons s rest ih =>
    intro acc
    rw [List.foldl_cons, ih]
    cases hf : fetch s <;>
      simp [processSourceStep, hf, okUrls, List.append_assoc]

/-- C9: for a run of `_process_domain` over distinct enabled sources, each
source's recorded stats are exactly determined by its own fetch outcome
(`total_urls` = number of URLs it returned, `errors` = 1 iff it raised) —
so a raising source contributes zero URLs and one error without affecting
any other source; the collected URLs are the concatenation of the
successful sources' URLs; a run in which every source raises completes with
zero URLs (no exception propagates — the model is a total function); and a
source returning `[]` registers `{total_urls := 0, errors := 0}`. -/
theorem source_isolation (fetch : String → Except String (List UrlData))
    (sources : List String) (hnd : sources.Nodup) :
    (∀ s ∈ sources, (process_domain fetch sources).stats s =
        { total_urls := (okUrls fetch s).length, errors := errCount fetch s }) ∧
    (process_domain fetch sources).urls = sources.flatMap (okUrls fetch) ∧
    ((∀ s ∈ sources, ∃ e, fetch s = Except.error e) →
        (process_domain fetch sources).urls = []) ∧
    (∀ s ∈ sources, fetch s = Except.ok [] →
        (process_domain fetch sources).stats s = { total_urls := 0, errors := 0 }) := by
  have hstats : ∀ s ∈ sources, (process_domain fetch sources).stats s =
      { total_urls := (okUrls fetch s).length, errors := errCount fetch s } := by
    intro s hs
    obtain ⟨ht, he⟩ := process_domain_stats_foldl fetch sources
      { urls := [], stats := fun _ => { total_urls := 0, errors := 0 } } s
    have hc : sources.count s = 1 := List.count_eq_one_of_mem hnd hs
    have ht' : ((process_domain fetch sources).stats s).total_urls =
        (okUrls fetch s).length := by
      unfold process_domain
      rw [ht, hc]
      simp
    have he' : ((process_domain fetch sources).stats s).errors =
        errCount fetch s := by
      unfold process_domain
      rw [he, hc]
      simp
    cases hst : (process_domain fetch sources).stats s with
    | mk t e =>
      rw [hst] at ht' he'
      simp only at ht' he'
      simp [ht', he']
  have hurls : (process_domain fetch sources).urls = sources.flatMap (okUrls fetch) := by
    simpa using process_domain_urls_foldl fetch sources
      { urls := [], stats := fun _ => { total_urls := 0, errors := 0 } }
  refine ⟨hstats, hurls, ?_, ?_⟩
  · intro hall
    rw [hurls]
    refine List.eq_nil_iff_forall_not_mem.mpr fun x hx => ?_
    rcases List.mem_flatMap.mp hx with ⟨s, hs, hxs⟩
    obtain ⟨e, he⟩ := hall s hs
    rw [okUrls, he] at hxs
    exact absurd hxs (List.not_mem_nil x)
  · intro s hs hok
    rw [hstats s hs, okUrls, hok, errCount, hok]
    rfl

/-! ## Claim C7 (crawler invariants) -/

/-- Every crawl step preserves the invariant. -/
theorem crawlStep_preserves (cfg : CrawlCfg) {s t : CrawlState}
    (h : CrawlStep cfg s t) (hi : CrawlInv cfg s) : CrawlInv cfg t := by
  obtain ⟨h1, h2, h3, h4⟩ := hi
  cases h with
  | drop v p₁ p₂ u d hcond =>
    refine ⟨h1, h2, h3, fun ud hud => h4 ud ?_⟩
    rcases List.mem_append.mp hud with hm | hm
    · exact List.mem_append_left _ hm
    · exact List.mem_append_right _ (List.mem_cons_of_mem _ hm)
  | visit v p₁ p₂ u d hd hlen hnv =>
    have hu : u ∈ start_urls cfg.domain ∨ is_same_domain u cfg.domain = true :=
      h4 (u, d) (List.mem_append_right _ (List.mem_cons_self _ _))
    refine ⟨?_, ?_, ?_, ?_⟩
    · exact List.nodup_append.mpr
        ⟨h1, List.nodup_singleton u,
         fun a ha hb => hnv (by simpa using (List.mem_singleton.mp hb) ▸ ha)⟩
    · simpa using hlen
    · intro x hx
      rcases List.mem_append.mp hx with hm | hm
      · exact h3 x hm
      · exact (List.mem_singleton.mp hm) ▸ hu
    · intro ud hud
      rcases List.mem_append.mp hud with hm | hm
      · rcases List.mem_append.mp hm with hm' | hm'
        · exact h4 ud (List.mem_append_left _ hm')
        · exact h4 ud (List.mem_append_right _ (List.mem_cons_of_mem _ hm'))
      · unfold childTasks at hm
        by_cases hdep : d < cfg.maxDepth
        · rw [if_pos hdep] at hm
          rcases List.mem_map.mp hm with ⟨l, hl, rfl⟩
          exact Or.inr (List.mem_filter.mp hl).2
        · rw [if_neg hdep] at hm
          exact absurd hm (List.not_mem_nil ud)
  | visitFail v p₁ p₂ u d hd hlen hnv =>
    have hu : u ∈ start_urls cfg.domain ∨ is_same_domain u cfg.domain = true :=
      h4 (u, d) (List.mem_append_right _ (List.mem_cons_self _ _))
    refine ⟨?_, ?_, ?_, ?_⟩
    · exact List.nodup_append.mpr
        ⟨h1, List.nodup_singleton u,
         fun a ha hb => hnv (by simpa using (List.mem_singleton.mp hb) ▸ ha)⟩
    · simpa using hlen
    · intro x hx
      rcases List.mem_append.mp hx with hm | hm
      · exact h3 x hm
      · exact (List.mem_singleton.mp hm) ▸ hu
    · intro ud hud
      rcases List.mem_append.mp hud with hm | hm
      · exact h4 ud (List.mem_append_left _ hm)
      · exact h4 ud (List.mem_append_right _ (List.mem_cons_of_mem _ hm))

/-- C7: in every state one crawl run can reach (over any page-link function,
any interleaving of the recursive tasks, any depth/page limits and any
domain), the visit log — one entry per page fetch — contains no duplicates
(no URL is fetched twice), its length never exceeds `max_pages`, and every
fetched URL is a seed URL or satisfies the crawler's same-domain test
(cross-domain links are never followed). -/
theorem crawler_invariants (cfg : CrawlCfg) (s : CrawlState)
    (h : CrawlReachable cfg s) :
    s.visited.Nodup ∧ s.visited.length ≤ cfg.maxPages ∧
    ∀ u ∈ s.visited,
      u ∈ start_urls cfg.domain ∨ is_same_domain u cfg.domain = true := by
  have hinv : CrawlInv cfg s := by
    unfold CrawlReachable at h
    induction h with
    | refl =>
      refine ⟨by simp [crawlInit], by simp [crawlInit], by simp [crawlInit], ?_⟩
      intro ud hud
      rcases List.mem_map.mp (by simpa [crawlInit] using hud) with ⟨x, hx, rfl⟩
      exact Or.inl hx
    | tail _ hstep ih => exact crawlStep_preserves cfg hstep ih
  exact ⟨hinv.1, hinv.2.1, hinv.2.2.1⟩

/-- Witness for C7: the invariants hold in a concretely reached state. -/
theorem crawler_invariants_witness :
    stW.visited.Nodup ∧ stW.visited.length ≤ cfgW.maxPages ∧
    ∀ u ∈ stW.visited,
      u ∈ start_urls cfgW.domain ∨ is_same_domain u cfgW.domain = true := by
  have hstep : CrawlStep cfgW (crawlInit cfgW) stW :=
    CrawlStep.visit [] [] pendW "https://example.com" 0
      (by decide) (by decide) (by simp)
  exact crawler_invariants cfgW stW (Relation.ReflTransGen.single hstep)

/-! ## Claim C8 (confidence-scoring filter) -/

/-- The fold underlying the score computations never drops below its
starting value. -/
theorem maxMatchFold_init_le (s : String) :
    ∀ (pats : List (ReSpec × ℤ)) (m : ℤ),
      m ≤ pats.foldl (fun m pc => if pc.1.matches s then max m pc.2 else m) m := by
  intro pats
  induction pats with
  | nil => intro m; simp
  | cons p rest ih =>
    intro m
    rw [List.foldl_cons]
    refine le_trans ?_ (ih _)
    by_cases hp : p.1.matches s = true <;> simp [hp]

/-- A matching pattern's confidence bounds the fold result from below,
whatever the starting value. -/
theorem maxMatchFold_ub (s : String) :
    ∀ (pats : List (ReSpec × ℤ)) (m : ℤ) (pc : ReSpec × ℤ), pc ∈ pats →
      pc.1.matches s = true →
      pc.2 ≤ pats.foldl (fun m pc => if pc.1.matches s then max m pc.2 else m) m := by
  intro pats
  induction pats with
  | nil => intro m pc h; simp at h
  | cons p rest ih =>
    intro m pc hmem hmatch
    rw [List.foldl_cons]
    rcases List.mem_cons.mp hmem with rfl | h
    · refine le_trans ?_ (maxMatchFold_init_le s rest _)
      simp [hmatch]
    · exact ih _ pc h hmatch

/-- The fold result is its starting value or some matching pattern's
confidence. -/
theorem maxMatchFold_attained (s : String) :
    ∀ (pats : List (ReSpec × ℤ)) (m : ℤ),
      pats.foldl (fun m pc => if pc.1.matches s then max m pc.2 else m) m = m ∨
      ∃ pc ∈ pats, pc.1.matches s = true ∧
        pats.foldl (fun m pc => if pc.1.matches s then max m pc.2 else m) m = pc.2 := by
  intro pats
  induction pats with
  | nil => intro m; exact Or.inl rfl
  | cons p rest ih =>
    intro m
    rw [List.foldl_cons]
    by_cases hp : p.1.matches s = true
    · rw [if_pos hp]
      rcases ih (max m p.2) with h | ⟨pc, hpc, hm, hv⟩
      · rcases max_choice m p.2 with hmx | hmx
        · exact Or.inl (h.trans hmx)
        · exact Or.inr ⟨p, List.mem_cons_self _ _, hp, h.trans hmx⟩
      · exact Or.inr ⟨pc, List.mem_cons_of_mem _ hpc, hm, hv⟩
    · rw [if_neg hp]
      rcases ih m with h | ⟨pc, hpc, hm, hv⟩
      · exact Or.inl h
      · exact Or.inr ⟨pc, List.mem_cons_of_mem _ hpc, hm, hv⟩

/-- C8: in the smart filtering mode (scores in hundredths of the Python
floats), a parameter is kept iff
`interesting_score − boring_score ≥ threshold`, with the default threshold
`0.7 ↦ 70`; the boring score is an upper bound of the matching boring
patterns' confidences and is `0` or attained by a matching pattern (so it is
exactly the maximum matching confidence, `0` if none match); the base
interesting score likewise; and the interesting score adds `0.1 ↦ 10` for
names longer than 6 characters and `0.05 ↦ 5` for names containing `_` or
`-`. -/
theorem smart_filter_scoring :
    (∀ (params : List String) (p : String) (th : ℤ),
      p ∈ smart_filter_parameters params th ↔
        p ∈ params ∧
          th ≤ calculate_interesting_score p - calculate_boring_score p) ∧
    default_smart_threshold = 70 ∧
    (∀ p : String, ∀ pc ∈ advanced_boring_patterns,
      pc.1.matches (lowerStr p) = true → pc.2 ≤ calculate_boring_score p) ∧
    (∀ p : String, calculate_boring_score p = 0 ∨
      ∃ pc ∈ advanced_boring_patterns, pc.1.matches (lowerStr p) = true ∧
        calculate_boring_score p = pc.2) ∧
    (∀ p : String, ∀ pc ∈ interesting_patterns,
      pc.1.matches (lowerStr p) = true →
        pc.2 ≤ maxMatchScore interesting_patterns (lowerStr p)) ∧
    (∀ p : String, maxMatchScore interesting_patterns (lowerStr p) = 0 ∨
      ∃ pc ∈ interesting_patterns, pc.1.matches (lowerStr p) = true ∧
        maxMatchScore interesting_patterns (lowerStr p) = pc.2) ∧
    (∀ p : String, calculate_interesting_score p =
        maxMatchScore interesting_patterns (lowerStr p) +
          (if p.data.length > 6 then 10 else 0) +
          (if p.data.contains '_' || p.data.contains '-' then 5 else 0)) := by
  refine ⟨?_, rfl, ?_, ?_, ?_, ?_, fun _ => rfl⟩
  · intro params p th
    unfold smart_filter_parameters
    rw [List.mem_filter]
    simp [decide_eq_true_eq]
  · intro p pc hmem hmatch
    exact maxMatchFold_ub _ _ 0 pc hmem hmatch
  · intro p
    exact maxMatchFold_attained _ _ 0
  · intro p pc hmem hmatch
    exact maxMatchFold_ub _ _ 0 pc hmem hmatch
  · intro p
    exact maxMatchFold_attained _ _ 0

/-- Witness for C8 at concrete inputs: `user_id` is kept (score
`0.85 + 0.1 + 0.05 − 0 = 1.0 ≥ 0.7`) and `utm_source` is rejected
(`0 + 0.1 + 0.05 − 0.95 < 0.7`). -/
theorem smart_filter_scoring_witness :
    "user_id" ∈ smart_filter_parameters ["user_id", "utm_source"] 70 ∧
    "utm_source" ∉ smart_filter_parameters ["user_id", "utm_source"] 70 :=
  ⟨(smart_filter_scoring.1 ["user_id", "utm_source"] "user_id" 70).mpr
      ⟨by decide, by decide⟩,
   fun h =>
     absurd ((smart_filter_scoring.1 ["user_id", "utm_source"] "utm_source" 70).mp h).2
       (by decide)⟩

/-! ## Claim C10 (sitemap source URL conditions) -/

/-- C10 counterexample: the sitemap parser checks `domain in url` as a
*substring*, not as a host test — a URL on a different host whose query
mentions the target domain is returned, although it does not belong to the
domain (the same-domain test is false). -/
theorem sitemap_counterexample :
    parse_sitemap_content (fun _ => none) "https://evil.com/page?ref=example.com"
      "example.com" = ["https://evil.com/page?ref=example.com"] ∧
    is_same_domain "https://evil.com/page?ref=example.com" "example.com" = false := by
  decide

/-- C10 (amended): every URL returned by the sitemap parser contains a `?`
and contains the target domain *as a substring* (anywhere in the URL —
host, path or query); belonging to the domain's host is not guaranteed.
This holds in both the XML branch and the plain-text fallback branch. -/
theorem sitemap_urls_contain_query_and_domain
    (xmlLocs : String → Option (List String)) (content domain u : String)
    (hu : u ∈ parse_sitemap_content xmlLocs content domain) :
    pyIn "?" u = true ∧ pyIn domain u = true := by
  unfold parse_sitemap_content at hu
  cases hx : xmlLocs content with
  | some locs =>
    rw [hx] at hu
    have h := (List.mem_filter.mp hu).2
    simp only [Bool.and_eq_true] at h
    exact h
  | none =>
    rw [hx] at hu
    rcases List.mem_filterMap.mp hu with ⟨l, _, hmap⟩
    dsimp only at hmap
    by_cases hc : (strStarts (strTrim l) "http" && pyIn "?" (strTrim l) &&
        pyIn domain (strTrim l)) = true
    · rw [if_pos hc] at hmap
      cases hmap
      simp only [Bool.and_eq_true] at hc
      exact ⟨hc.1.2, hc.2⟩
    · rw [if_neg hc] at hmap
      exact absurd hmap (by simp)

/-- Witness for C10 at a concrete input (XML branch). -/
theorem sitemap_urls_witness :
    pyIn "?" "https://example.com/shop?item=3" = true ∧
    pyIn "example.com" "https://example.com/shop?item=3" = true :=
  sitemap_urls_contain_query_and_domain
    (fun _ => some ["https://example.com/shop?item=3"])
    "<urlset/>" "example.com" "https://example.com/shop?item=3" (by decide)

/-- Witness for C9 at a concrete input. -/
theorem source_isolation_witness :
    (process_domain fetchW ["wayback", "sitemap", "js", "crawl"]).stats "wayback" =
      { total_urls := 0, errors := 1 } ∧
    (process_domain fetchW ["wayback", "sitemap", "js", "crawl"]).stats "sitemap" =
      { total_urls := 0, errors := 0 } ∧
    (process_domain fetchW ["wayback", "sitemap", "js", "crawl"]).urls =
      [{ url := "https://shop.example.com/item?pid=7",
         domain := "example.com", source := "js" }] := by
  obtain ⟨h1, h2, _, h4⟩ :=
    source_isolation fetchW ["wayback", "sitemap", "js", "crawl"] (by decide)
  exact ⟨h1 "wayback" (by decide), h4 "sitemap" (by decide) rfl,
         h2.trans (by decide)⟩

/-! ## Claim C4 (idempotence of the filter+clean step) -/

/-- Idempotence of `filter_parameters` (rejection depends only on the
name, so filtering an already-filtered list changes nothing). -/
theorem filter_parameters_idem (l : List String) :
    filter_parameters (filter_parameters l) = filter_parameters l := by
  unfold filter_parameters filter_parametersWith
  rw [List.filter_filter]
  simp

/-- C4 counterexample: the extract→filter→clean step is *not* idempotent on
every well-formed URL.  The parameter name `x%26y` decodes to `x&y` on
extraction, and `create_cleaned_url` writes the decoded name back raw, so
the first cleaned URL `https://example.com/a?x&y=FUZZ` re-parses as two
parameters `x` and `y` and the second pass yields a different string. -/
theorem clean_step_not_idempotent :
    filter_clean_step "FUZZ" (filter_clean_step "FUZZ" "https://example.com/a?x%26y=1") ≠
      filter_clean_step "FUZZ" "https://example.com/a?x%26y=1" ∧
    filter_clean_step "FUZZ" "https://example.com/a?x%26y=1" =
      "https://example.com/a?x&y=FUZZ" ∧
    filter_clean_step "FUZZ" "https://example.com/a?x&y=FUZZ" =
      "https://example.com/a?x=FUZZ&y=FUZZ" := by
  decide

/-- C4 (amended): the extract→filter→clean step is idempotent on every URL
whose parse is structurally well-formed (`SplitWF`: as every normal
`http(s)` URL is) and whose kept parameter names — and the placeholder —
avoid the query metacharacters that do not survive re-parsing
(`&`, `=`, `%`, `+`, `#`, and control bytes; names must be ASCII).  The
claim as stated fails only when a kept name percent-encodes such a
metacharacter (see the counterexample). -/
theorem filter_clean_step_idempotent (u ph : String) (r : SplitResult)
    (hr : urlsplitE u = some r) (hwf : SplitWF r = true)
    (hns : ∀ n ∈ filter_parameters (extract_parameters u), PlainName n = true)
    (hph : PlainPlaceholder ph = true) :
    filter_clean_step ph (filter_clean_step ph u) = filter_clean_step ph u := by
  obtain ⟨NS, hNS⟩ : ∃ NS, filter_parameters (extract_parameters u) = NS :=
    ⟨_, rfl⟩
  rw [hNS] at hns
  have hstep1 : filter_clean_step ph u =
      urlunsplit r.scheme r.netloc r.path (String.mk (joinPairs ph NS))
        r.fragment := by
    unfold filter_clean_step create_cleaned_url
    rw [hNS, hr]
  have hqc : ∀ c ∈ (String.mk (joinPairs ph NS)).data,
      c ≠ '#' ∧ notCtl c = true := by
    intro c hc
    rcases mem_joinPairs ph NS c hc with rfl | rfl | ⟨n, hn, hcn⟩ | hc2
    · exact ⟨by decide, by decide⟩
    · exact ⟨by decide, by decide⟩
    · have hf := plainName_facts (hns n hn) c hcn
      refine ⟨hf.2.2.2.2.2.1, ?_⟩
      simp [notCtl, hf.2.2.2.2.2.2.1, hf.2.2.2.2.2.2.2.1, hf.2.2.2.2.2.2.2.2]
    · have hf := plainPh_facts hph c hc2
      refine ⟨hf.2.1, ?_⟩
      simp [notCtl, hf.2.2.1, hf.2.2.2.1, hf.2.2.2.2]
  have hwf' : SplitWF ⟨r.scheme, r.netloc, r.path,
      String.mk (joinPairs ph NS), r.fragment⟩ = true := by
    cases r
    exact hwf
  have hround : urlsplitE (filter_clean_step ph u) =
      some ⟨r.scheme, r.netloc, r.path, String.mk (joinPairs ph NS),
        r.fragment⟩ := by
    rw [hstep1]
    exact urlsplit_urlunsplit r.scheme r.netloc r.path
      (String.mk (joinPairs ph NS)) r.fragment hwf' hqc
  have hext_nodup : (extract_parameters u).Nodup := by
    unfold extract_parameters
    rw [hr]
    exact nodup_dedupFirstAux _ _
  have hnodupNS : NS.Nodup := by
    rw [← hNS]
    exact List.Nodup.filter _ hext_nodup
  have hvext : extract_parameters (filter_clean_step ph u) = NS := by
    unfold extract_parameters
    rw [hround]
    show parseQsKeys (String.mk (joinPairs ph NS)) = NS
    unfold parseQsKeys
    rw [parseQslNames_joinPairs ph NS hns hph]
    exact dedupFirstAux_eq_self hnodupNS (fun x _ => List.not_mem_nil x)
  have hfNS : filter_parameters NS = NS := by
    rw [← hNS, filter_parameters_idem]
  obtain ⟨v, hv⟩ : ∃ v, filter_clean_step ph u = v := ⟨_, rfl⟩
  rw [hv] at hround hvext ⊢
  show create_cleaned_url v (filter_parameters (extract_parameters v)) ph = v
  rw [hvext, hfNS]
  unfold create_cleaned_url
  rw [hround]
  show urlunsplit r.scheme r.netloc r.path (String.mk (joinPairs ph NS))
    r.fragment = v
  rw [← hv, hstep1]

/-- Witness for C4 at a concrete input: the step is idempotent on
`https://example.com/search?q=python&utm_source=x` with placeholder
`FUZZ`. -/
theorem filter_clean_step_idempotent_witness :
    filter_clean_step "FUZZ"
        (filter_clean_step "FUZZ" "https://example.com/search?q=python&utm_source=x") =
      filter_clean_step "FUZZ" "https://example.com/search?q=python&utm_source=x" :=
  filter_clean_step_idempotent "https://example.com/search?q=python&utm_source=x"
    "FUZZ"
    ⟨"https", "example.com", "/search", "q=python&utm_source=x", ""⟩
    (by decide) (by decide) (by decide) (by decide)

end SpiderX
